import Mathlib

/-!
Verification of the x86-64 NaCl instruction-encoding enumerator and
trie/DFA construction pipeline (generator.py, objdump_check.py).

The trie node type, its constructors (DftLabel, MakeInterned, TrieNode),
and the distinguished EmptyNode/AcceptNode come from the repository's
trie library; nodes are immutable and interned, so structural equality
coincides with node identity, which the Lean embedding models by
ordinary equality of an inductive type.
-/

namespace X86

/-- A byte-or-wildcard token.  The source represents concrete bytes as
two-digit hex strings produced by Byte (x) and the wildcard as the
string XX; we represent them as a sum. -/
inductive Token where
  | byte (b : Nat)
  | XX
deriving DecidableEq, Repr

/-- Values carried by semantic labels: register numbers, operand
description strings, booleans (test_keep), argument lists (args),
and None (lock_prefix). -/
inductive LVal where
  | nat (n : Nat)
  | str (s : String)
  | bool (b : Bool)
  | args (l : List (Bool × String))
  | none
deriving DecidableEq, Repr

/-- Accept tags.  During generation accepts are the Python booleans
(f/t); label stripping replaces them by the accept kinds
normal_inst / jump_rel{n} / superinst_start; replace is the transient
accept kind used inside StripDftRec. -/
inductive ATag where
  | f
  | t
  | normal_inst
  | jump_rel (n : Nat)
  | superinst_start
  | replace
deriving DecidableEq, Repr

/-- Modelled from the spec: the interned trie node type of the trie
library (not under src/).  A node is either a branch (children keyed by
byte-or-wildcard tokens, plus an accept tag) or a single-edge label
node (key, value, successor).  Children are a finite map, embedded as
an association list; merge results are built with keys in a canonical
sorted order, which models the interning of structurally equal children
dictionaries. -/
inductive Node where
  | branch (children : List (Token × Node)) (accept : ATag)
  | label (key : String) (value : LVal) (next : Node)
deriving Repr

/-- Modelled from the spec: the distinguished empty (dead) node, the
zero of the merge operation. -/
def EmptyNode : Node := Node.branch [] ATag.f

/-- Modelled from the spec: the accepting leaf used as the tail of
complete encodings (trie.AcceptNode). -/
def AcceptNode : Node := Node.branch [] ATag.t

/-- Modelled from the spec: DftLabels wraps a node in a chain of label
nodes, first label outermost. -/
def DftLabels (labels : List (String × LVal)) (node : Node) : Node :=
  labels.foldr (fun kv n => Node.label kv.1 kv.2 n) node

/-- TrieOfList from generator.py: right-fold a token sequence into a
linear chain of non-accepting branch nodes ending at the given tail. -/
def TrieOfList (bytes : List Token) (node : Node) : Node :=
  bytes.foldr (fun byte n => Node.branch [(byte, n)] ATag.f) node

/-- Lookup in a children association list (the children dictionary). -/
def childAt (children : List (Token × Node)) (k : Token) : Option Node :=
  match children with
  | [] => Option.none
  | (t, n) :: r => if t = k then some n else childAt r k

-- ---------------------------------------------------------------------------
-- Merging (generator.py lines 332-364), with size lemmas used only for
-- the termination argument of the well-founded recursion.
-- ---------------------------------------------------------------------------

def collectChildren (k : Token) (nodes : List Node) : List Node :=
  nodes.filterMap (fun n => match n with
    | Node.branch ch _ => childAt ch k
    | Node.label _ _ _ => Option.none)

def nodeKeys : Node → List Token
  | Node.branch ch _ => ch.map Prod.fst
  | Node.label _ _ _ => []

def nodeNext : Node → Option Node
  | Node.label _ _ nx => some nx
  | Node.branch _ _ => Option.none

def labelsMatch (k : String) (v : LVal) (nodes : List Node) : Bool :=
  nodes.all (fun n => match n with
    | Node.label k2 v2 _ => k2 = k ∧ v2 = v
    | Node.branch _ _ => false)

def nodeAccept : Node → Option ATag
  | Node.branch _ a => some a
  | Node.label _ _ _ => Option.none

def tokVal : Token → Nat
  | Token.XX => 0
  | Token.byte b => b + 1

def insTok (k : Token) : List Token → List Token
  | [] => [k]
  | h :: r =>
    if tokVal k < tokVal h then k :: h :: r
    else if tokVal k = tokVal h then h :: r
    else h :: insTok k r

def sortedKeys (l : List Token) : List Token := l.foldr insTok []

mutual
def nsize : Node → Nat
  | Node.label _ _ nx => 1 + nsize nx
  | Node.branch ch _ => 1 + nsizeCh ch
def nsizeCh : List (Token × Node) → Nat
  | [] => 0
  | (_, n) :: r => nsize n + nsizeCh r
end

theorem nsize_label (k : String) (v : LVal) (nx : Node) :
    nsize (Node.label k v nx) = 1 + nsize nx := rfl

theorem nsize_branch (ch : List (Token × Node)) (a : ATag) :
    nsize (Node.branch ch a) = 1 + nsizeCh ch := rfl

theorem nsizeCh_nil : nsizeCh [] = 0 := rfl

theorem nsizeCh_cons (t : Token) (n : Node) (r : List (Token × Node)) :
    nsizeCh ((t, n) :: r) = nsize n + nsizeCh r := rfl

def sizeSum (l : List Node) : Nat := (l.map nsize).sum

theorem node_nsize_pos (n : Node) : 0 < nsize n := by
  cases n <;> simp [nsize]

theorem childAt_nsize {ch : List (Token × Node)} {k : Token} {c : Node}
    (h : childAt ch k = some c) : nsize c ≤ nsizeCh ch := by
  induction ch with
  | nil => simp [childAt] at h
  | cons hd tl ih =>
    obtain ⟨t, n⟩ := hd
    rw [childAt] at h
    split_ifs at h with ht
    · cases Option.some.inj h
      simp [nsizeCh]
    · have := ih h
      simp [nsizeCh]
      omega

theorem shrink_filterMap_le (f : Node → Option Node)
    (hf : ∀ n c, f n = some c → nsize c < nsize n) :
    ∀ l : List Node, sizeSum (l.filterMap f) ≤ sizeSum l := by
  intro l
  induction l with
  | nil => simp [sizeSum]
  | cons n ns ih =>
    cases hfn : f n with
    | none =>
      rw [List.filterMap_cons_none hfn]
      simp only [sizeSum, List.map_cons, List.sum_cons] at ih ⊢
      omega
    | some c =>
      rw [List.filterMap_cons_some hfn]
      have h1 := hf n c hfn
      simp only [sizeSum, List.map_cons, List.sum_cons] at ih ⊢
      omega

theorem shrink_filterMap_lt (f : Node → Option Node)
    (hf : ∀ n c, f n = some c → nsize c < nsize n)
    (n : Node) (ns : List Node) :
    sizeSum ((n :: ns).filterMap f) < sizeSum (n :: ns) := by
  have hrest := shrink_filterMap_le f hf ns
  have hpos := node_nsize_pos n
  cases hfn : f n with
  | none =>
    rw [List.filterMap_cons_none hfn]
    simp only [sizeSum, List.map_cons, List.sum_cons] at hrest ⊢
    omega
  | some c =>
    rw [List.filterMap_cons_some hfn]
    have h1 := hf n c hfn
    simp only [sizeSum, List.map_cons, List.sum_cons] at hrest ⊢
    omega

theorem collect_lt (k : Token) (n : Node) (ns : List Node) :
    sizeSum (collectChildren k (n :: ns)) < sizeSum (n :: ns) := by
  apply shrink_filterMap_lt
  intro m c h
  cases m with
  | branch ch a =>
    have := childAt_nsize h
    simp [nsize]
    omega
  | label k2 v2 nx => simp at h

theorem nexts_lt (n : Node) (ns : List Node) :
    sizeSum ((n :: ns).filterMap nodeNext) < sizeSum (n :: ns) := by
  apply shrink_filterMap_lt
  intro m c h
  cases m with
  | branch ch a => simp [nodeNext] at h
  | label k2 v2 nx =>
    cases Option.some.inj h
    simp [nsize, nodeNext]

theorem mergeChildren_dec1 (k : Token) (r : List Token) (n : Node) (ns : List Node) :
    Prod.Lex (fun a b => a < b) (fun a b => a < b)
      (sizeSum (collectChildren k (n :: ns)) + 1, 0)
      (sizeSum (n :: ns), (k :: r).length) := by
  have h := collect_lt k n ns
  rcases Nat.lt_or_ge (sizeSum (collectChildren k (n :: ns)) + 1)
    (sizeSum (n :: ns)) with hlt | hge
  · exact Prod.Lex.left _ _ hlt
  · have heq : sizeSum (collectChildren k (n :: ns)) + 1 = sizeSum (n :: ns) := by
      omega
    rw [heq]
    exact Prod.Lex.right _ (by simp)

theorem mergeChildren_dec2 (x : Nat) (k : Token) (r : List Token) :
    Prod.Lex (fun a b => a < b) (fun a b => a < b)
      (x, r.length) (x, (k :: r).length) :=
  Prod.Lex.right _ (by simp)

/-- MergeMany (generator.py lines 332-364), implemented by recursion on
a fuel argument so that it evaluates inside the kernel; the fuel only
bounds the recursion depth and MergeMany below supplies enough for it
never to run out.  A singleton merges to its element and an empty
multiset to the empty node.  If the first node is a label, all nodes
must be labels with the same key and value and the successors merge.
Otherwise all nodes must be branches; their children merge key-wise
(keys in canonical sorted order, modelling the interned children
dictionary) and the accept tags merge through the policy unless they
agree. -/
def mergeManyF (fuel : Nat) (nodes : List Node)
    (policy : List ATag → Option ATag) : Option Node :=
  match fuel, nodes with
  | _, [n] => some n
  | _, [] => some EmptyNode
  | 0, _ :: _ :: _ => Option.none
  | fuel + 1, Node.label k v nx :: n1 :: rest =>
    if labelsMatch k v (Node.label k v nx :: n1 :: rest) then
      (mergeManyF fuel ((Node.label k v nx :: n1 :: rest).filterMap nodeNext)
        policy).map (fun m => Node.label k v m)
    else Option.none
  | fuel + 1, Node.branch ch a :: n1 :: rest => do
    let accepts ← (Node.branch ch a :: n1 :: rest).mapM nodeAccept
    let children ←
      (sortedKeys ((Node.branch ch a :: n1 :: rest).flatMap nodeKeys)).mapM
        (fun k =>
          (mergeManyF fuel (collectChildren k (Node.branch ch a :: n1 :: rest))
            policy).map (fun m => (k, m)))
    let accept ← (match accepts.dedup with
                  | [x] => some x
                  | l => policy l)
    pure (Node.branch children accept)

/-- MergeMany with enough fuel for its input. -/
def MergeMany (nodes : List Node) (policy : List ATag → Option ATag) :
    Option Node :=
  mergeManyF (sizeSum nodes + 1) nodes policy

/-- The default merge policy: conflicting accept types abort the
program (NoMerge raises). -/
def NoMerge : List ATag → Option ATag := fun _ => Option.none

/-- The superinstruction merge policy: exactly the accept-type set
consisting of normal_inst and the non-accepting tag merges to
superinst_start; anything else aborts. -/
def MergeAcceptTypes (accept_types : List ATag) : Option ATag :=
  if accept_types.contains ATag.normal_inst ∧ accept_types.contains ATag.f ∧
      accept_types.all (fun x => x = ATag.normal_inst ∨ x = ATag.f) then
    some ATag.superinst_start
  else
    Option.none

/-- TrieNode from generator.py: a raw branch node. -/
def TrieNode (children : List (Token × Node)) (accept : ATag) : Node :=
  Node.branch children accept

-- ---------------------------------------------------------------------------
-- Register and size tables (generator.py lines 18-64)
-- ---------------------------------------------------------------------------

def regs64 : List String :=
  ["rax", "rcx", "rdx", "rbx", "rsp", "rbp", "rsi", "rdi",
   "r8", "r9", "r10", "r11", "r12", "r13", "r14", "r15"]

def regs32 : List String :=
  ["eax", "ecx", "edx", "ebx", "esp", "ebp", "esi", "edi",
   "r8d", "r9d", "r10d", "r11d", "r12d", "r13d", "r14d", "r15d"]

def regs16 : List String :=
  ["ax", "cx", "dx", "bx", "sp", "bp", "si", "di",
   "r8w", "r9w", "r10w", "r11w", "r12w", "r13w", "r14w", "r15w"]

def regs_x87 : List String :=
  ["st(0)", "st(1)", "st(2)", "st(3)", "st(4)", "st(5)", "st(6)", "st(7)"]

def regs_mmx : List String :=
  ["mm0", "mm1", "mm2", "mm3", "mm4", "mm5", "mm6", "mm7"]

def regs_xmm : List String :=
  ["xmm0", "xmm1", "xmm2", "xmm3", "xmm4", "xmm5", "xmm6", "xmm7",
   "xmm8", "xmm9", "xmm10", "xmm11", "xmm12", "xmm13", "xmm14", "xmm15"]

def regs8_original : List String :=
  ["al", "cl", "dl", "bl", "ah", "ch", "dh", "bh"]

def regs8_extended : List String :=
  ["al", "cl", "dl", "bl", "spl", "bpl", "sil", "dil",
   "r8b", "r9b", "r10b", "r11b", "r12b", "r13b", "r14b", "r15b"]

def nacl_unwritable_reg : List String :=
  ["r15", "r15d", "r15w", "r15b",
   "rsp", "esp", "sp", "spl",
   "rbp", "ebp", "bp", "bpl"]

def nacl_base_regs : List String := ["r15", "rsp", "rbp"]

/-- Operand sizes: either a bit width or one of the string size tags. -/
inductive OpSize where
  | num (n : Nat)
  | tag (s : String)
deriving DecidableEq, Repr

/-- regs_by_size dictionary; lookup of a missing key raises in the
source, embedded as Option.none. -/
def regs_by_size : OpSize → Option (List String)
  | OpSize.num 64 => some regs64
  | OpSize.num 32 => some regs32
  | OpSize.num 16 => some regs16
  | OpSize.tag "x87" => some regs_x87
  | OpSize.tag "mmx" => some regs_mmx
  | OpSize.tag "mmx32" => some regs_mmx
  | OpSize.tag "mmx64" => some regs_mmx
  | OpSize.tag "xmm" => some regs_xmm
  | OpSize.tag "xmm32" => some regs_xmm
  | OpSize.tag "xmm64" => some regs_xmm
  | _ => Option.none

def RegsBySize (has_rex : Bool) (size : OpSize) : Option (List String) :=
  if size = OpSize.num 8 then
    some (if has_rex then regs8_extended else regs8_original)
  else
    regs_by_size size

/-- mem_sizes dictionary, as the string used by FormatMemAccess.
Missing keys raise in the source; the enumerator only consults the
listed keys, so the default branch is inert. -/
def mem_sizes : OpSize → String
  | OpSize.num 128 => "OWORD PTR "
  | OpSize.num 64 => "QWORD PTR "
  | OpSize.num 32 => "DWORD PTR "
  | OpSize.num 16 => "WORD PTR "
  | OpSize.num 8 => "BYTE PTR "
  | OpSize.tag "mmx32" => "DWORD PTR "
  | OpSize.tag "mmx64" => "QWORD PTR "
  | OpSize.tag "xmm" => "XMMWORD PTR "
  | OpSize.tag "xmm32" => "DWORD PTR "
  | OpSize.tag "xmm64" => "QWORD PTR "
  | OpSize.tag "lea_mem" => ""
  | OpSize.tag "prefetch_mem" => "BYTE PTR "
  | OpSize.num 80 => "TBYTE PTR "
  | OpSize.tag "other_x87_size" => ""
  | OpSize.tag "fxsave_size" => ""
  | OpSize.tag "lddqu_size" => ""
  | _ => ""

/-- Sizes whose memory accesses are not sandboxed. -/
def unsandboxed_mem : List OpSize := [OpSize.tag "lea_mem", OpSize.tag "prefetch_mem"]

-- ---------------------------------------------------------------------------
-- Operand attributes and register enumeration (generator.py lines 66-88)
-- ---------------------------------------------------------------------------

structure OperandAttrs where
  readonly : Bool
  canzeroextend : Bool
deriving DecidableEq, Repr

/-- GetExtendedRegs: the eight registers of a 3-bit field, with the top
bit supplied by a REX bit when the register list has 16 entries. -/
def GetExtendedRegs (top_bit : Nat) (reglist : List String) : List (Nat × String) :=
  (List.range 8).map (fun reg =>
    (reg, reglist.getD (reg + (if reglist.length = 16 then top_bit <<< 3 else 0)) ""))

/-- GetOperandRegs: enumerate the registers permitted in an operand slot
under the NaCl constraints, together with the labels to attach.
Registers of the protected set are skipped unless the slot is read-only,
except that a canzeroextend slot naming esp or ebp is emitted with a
requires_fixup label, and other canzeroextend 32-bit destinations get a
zeroextends label. -/
def GetOperandRegs (attrs : OperandAttrs) (top_bit : Nat) (reglist : List String) :
    List (Nat × String × List (String × LVal)) :=
  (GetExtendedRegs top_bit reglist).filterMap (fun p =>
    let reg := p.1
    let regname := p.2
    let reg_num := reg + (top_bit <<< 3)
    if attrs.canzeroextend = true ∧ (regname = "esp" ∨ regname = "ebp") then
      some (reg, regname, [("requires_fixup", LVal.nat reg_num)])
    else if attrs.readonly = false ∧ regname ∈ nacl_unwritable_reg then
      Option.none
    else if attrs.canzeroextend = true ∧ regname ∈ regs32 then
      some (reg, regname, [("zeroextends", LVal.nat reg_num)])
    else
      some (reg, regname, []))

/-- The guard applied to a fixreg (opcode-embedded register) operand in
Add: a non-readonly fixreg operand naming a protected register causes
the whole encoding to be dropped (generator.py lines 729-734). -/
def FixRegAllowed (readonly : Bool) (regname : String) : Bool :=
  !(readonly = false ∧ regname ∈ nacl_unwritable_reg : Bool)

/-- StackFixup: the fixup instruction chain addq r15, rsp/rbp; the
source asserts the register is 4 or 5. -/
def StackFixup (reg : Nat) : Option Node :=
  if reg = 4 ∨ reg = 5 then
    some (TrieOfList [Token.byte 0x4c, Token.byte 0x01, Token.byte (0xf8 ||| reg)] AcceptNode)
  else
    Option.none

-- ---------------------------------------------------------------------------
-- ModR/M and SIB enumeration (generator.py lines 186-316)
-- ---------------------------------------------------------------------------

/-- FormatMemAccess: size string, then the nonempty parts joined by +
inside brackets. -/
def FormatMemAccess (size : OpSize) (parts : List String) : String :=
  mem_sizes size ++ "[" ++ String.intercalate "+" (parts.filter (fun p => p ≠ "")) ++ "]"

/-- One emitted SIB combination: the loop-local data of the Sib
enumeration, from which the SIB byte (scale<<6 | index<<3 | base), the
label chain and the displacement tail are rebuilt. -/
structure SibEntry where
  index_reg : Nat
  index_regname : String
  scale : Nat
  base_reg : Nat
  base_regname : String
  labels : List (String × LVal)
  disp_size2 : Nat
deriving DecidableEq, Repr

/-- The SIB combinations the enumerator emits, in loop order: for each
index register (4 with REX.X=0 being riz), scale, and base register,
filtered by the NaCl base-register constraint (a sandboxed size whose
base name is not in nacl_base_regs is skipped; base 5 at mod 0 has an
empty base name and a 4-byte displacement). -/
def SibEntries (rex_x rex_b mod : Nat) (rm_size : OpSize) (disp_size : Nat)
    (disp_str : String) : List SibEntry :=
  (GetExtendedRegs rex_x regs64).flatMap (fun ir =>
    let index_reg := ir.1
    let index_regname := if index_reg = 4 ∧ rex_x = 0 then "riz" else ir.2
    ([0, 1, 2, 3] : List Nat).flatMap (fun scale =>
      (GetExtendedRegs rex_b regs64).filterMap (fun br =>
        let base_reg := br.1
        let labels0 : List (String × LVal) :=
          if index_regname = "riz" ∧ base_reg = 4 ∧ scale = 0 then []
          else if rm_size ∉ unsandboxed_mem then
            [("requires_zeroextend", LVal.nat (index_reg + (rex_x <<< 3)))]
          else []
        let index_result : String :=
          if index_regname = "riz" ∧ base_reg = 4 ∧ scale = 0 then ""
          else index_regname ++ "*" ++ toString ((1 : Nat) <<< scale)
        let base_regname := if base_reg = 5 ∧ mod = 0 then "" else br.2
        let extra := if base_reg = 5 ∧ mod = 0 then "VALUE32" else ""
        let disp_size2 : Nat := if base_reg = 5 ∧ mod = 0 then 4 else 0
        if rm_size ∉ unsandboxed_mem ∧ base_regname ∉ nacl_base_regs then
          Option.none
        else
          let desc : String :=
            if index_regname = "riz" ∧ base_reg = 5 ∧ mod = 0 ∧ scale = 0 then
              mem_sizes rm_size ++ "ds:VALUE32"
            else
              FormatMemAccess rm_size [base_regname, index_result, extra, disp_str]
          some (SibEntry.mk index_reg index_regname scale base_reg base_regname
            (labels0 ++ [("test_keep",
                          LVal.bool (decide (index_reg = 1 ∧ scale = 0 ∧ disp_size = 1))),
                         ("rm_arg", LVal.str desc)])
            disp_size2))))

/-- Sib: the merged trie of all emitted SIB combinations, each a
one-byte edge followed by its labels and displacement wildcards. -/
def Sib (rex_x rex_b mod : Nat) (rm_size : OpSize) (disp_size : Nat)
    (disp_str : String) (tail : Node) : Option Node :=
  MergeMany ((SibEntries rex_x rex_b mod rm_size disp_size disp_str).map (fun e =>
    TrieOfList [Token.byte ((e.scale <<< 6) ||| (e.index_reg <<< 3) ||| e.base_reg)]
      (DftLabels e.labels
        (TrieOfList (List.replicate (disp_size + e.disp_size2) Token.XX) tail)))) NoMerge

/-- The (reg2, register-name) pairs emitted by the base-register loop of
ModRMMem for one mod value: sandboxed sizes keep only nacl_base_regs
bases; reg2 = 4 escapes to SIB and reg2 = 5 at mod 0 is RIP-relative,
so both are skipped here. -/
def ModRMMemBaseEntries (rex_b : Nat) (rm_size : OpSize) (mod : Nat) :
    List (Nat × String) :=
  (GetExtendedRegs rex_b regs64).filterMap (fun br =>
    let reg2 := br.1
    let regname2 := br.2
    if rm_size ∉ unsandboxed_mem ∧ regname2 ∉ nacl_base_regs then Option.none
    else if reg2 = 4 then Option.none
    else if reg2 = 5 ∧ mod = 0 then Option.none
    else some (reg2, regname2))

/-- ModRMMem: the (mod, r/m, subtree) triples for the memory forms —
the RIP-relative form first, then for each mod the base-register forms
followed by the SIB escape. -/
def ModRMMem (rex_x rex_b : Nat) (rm_size : OpSize) (tail : Node) :
    Option (List (Nat × Nat × Node)) := do
  let rip : Nat × Nat × Node :=
    (0, 5, TrieOfList (List.replicate 4 Token.XX)
             (Node.label "rm_arg"
               (LVal.str (mem_sizes rm_size ++ "[rip+VALUE32]")) tail))
  let rest ← ([(0, 0, ""), (1, 1, "VALUE8"), (2, 4, "VALUE32")] :
      List (Nat × Nat × String)).mapM (fun m => do
    let bases := (ModRMMemBaseEntries rex_b rm_size m.1).map (fun p =>
      (m.1, p.1, TrieOfList (List.replicate m.2.1 Token.XX)
         (Node.label "rm_arg"
           (LVal.str (FormatMemAccess rm_size [p.2, m.2.2])) tail)))
    let sib ← Sib rex_x rex_b m.1 rm_size m.2.1 m.2.2 tail
    pure (bases ++ [(m.1, 4, sib)]))
  pure (rip :: rest.flatten)

/-- ModRMReg: the register forms (mod = 3), one per register emitted by
GetOperandRegs, with test_keep and rm_arg labels. -/
def ModRMReg (has_rex : Bool) (rex_b : Nat) (rm_size : OpSize)
    (rm_attrs : OperandAttrs) (tail : Node) : Option (List (Nat × Nat × Node)) := do
  let reglist ← RegsBySize has_rex rm_size
  pure ((GetOperandRegs rm_attrs rex_b reglist).map (fun t =>
    (3, t.1, DftLabels t.2.2
      (Node.label "test_keep" (LVal.bool (decide (t.1 = 2 ∨ t.2.2 ≠ [])))
        (Node.label "rm_arg" (LVal.str t.2.1) tail)))))

/-- ModRM1: memory forms (when allowed) followed by register forms
(when allowed). -/
def ModRM1 (has_rex : Bool) (rex_x rex_b : Nat) (rm_size : OpSize)
    (rm_attrs : OperandAttrs) (rm_allow_reg rm_allow_mem : Bool) (tail : Node) :
    Option (List (Nat × Nat × Node)) := do
  let mem ← if rm_allow_mem then ModRMMem rex_x rex_b rm_size tail else pure []
  let reg ← if rm_allow_reg then ModRMReg has_rex rex_b rm_size rm_attrs tail
            else pure []
  pure (mem ++ reg)

/-- ModRM: for each reg-field register, for each r/m form, the ModR/M
byte edge followed by the reg labels and the r/m subtree. -/
def ModRM (has_rex : Bool) (rex_r rex_x rex_b : Nat) (reg_size : OpSize)
    (reg_attrs : OperandAttrs) (rm_size : OpSize) (rm_attrs : OperandAttrs)
    (rm_allow_reg rm_allow_mem : Bool) (tail : Node) : Option (List Node) := do
  let reglist ← RegsBySize has_rex reg_size
  let inner ← ModRM1 has_rex rex_x rex_b rm_size rm_attrs rm_allow_reg
    rm_allow_mem tail
  pure ((GetOperandRegs reg_attrs rex_r reglist).flatMap (fun t =>
    inner.map (fun mrn =>
      TrieOfList [Token.byte ((mrn.1 <<< 6) ||| (t.1 <<< 3) ||| mrn.2.1)]
        (DftLabels t.2.2
          (Node.label "test_keep" (LVal.bool (decide (t.1 = 3 ∨ t.2.2 ≠ [])))
            (Node.label "reg_arg" (LVal.str t.2.1) mrn.2.2))))))

/-- ModRMNode: the merged ModR/M subtree. -/
def ModRMNode (has_rex : Bool) (rex_r rex_x rex_b : Nat) (reg_size : OpSize)
    (reg_attrs : OperandAttrs) (rm_size : OpSize) (rm_attrs : OperandAttrs)
    (rm_allow_reg rm_allow_mem : Bool) (tail : Node) : Option Node := do
  let nodes ← ModRM has_rex rex_r rex_x rex_b reg_size reg_attrs rm_size rm_attrs
    rm_allow_reg rm_allow_mem tail
  MergeMany nodes NoMerge

/-- ImmediateNode: wildcard chain for an immediate of the given bit
width, ending in the accepting leaf; other widths are asserted away. -/
def ImmediateNode (immediate_size : Nat) : Option Node :=
  if immediate_size = 0 ∨ immediate_size = 8 ∨ immediate_size = 16 ∨
      immediate_size = 32 ∨ immediate_size = 64 then
    some (TrieOfList (List.replicate (immediate_size / 8) Token.XX) AcceptNode)
  else
    Option.none

-- ---------------------------------------------------------------------------
-- Label stripping (generator.py lines 438-477) and wildcard expansion
-- (generator.py lines 485-496)
-- ---------------------------------------------------------------------------

/-- The label keys that survive stripping. -/
def keep_label (k : String) : Bool := k = "requires_zeroextend" ∨ k = "zeroextends"

/-- The nsize of an optional replacement trie. -/
def repN : Option Node → Nat
  | Option.none => 0
  | some r => nsize r

/-- StripDftRec (generator.py lines 447-474): convert the labeled
transducer into an acceptor, implemented by recursion on a fuel
argument so that it evaluates inside the kernel; StripDftRecG below
supplies enough fuel for it never to run out.  relative_jump and
requires_fixup labels update the traversal state (asserting the current
accept kind is normal_inst); requires_zeroextend and zeroextends labels
are re-interned into the output; other labels are dropped.  At an
accepting node under the replace state the node must be childless and
is replaced by the stripped replacement trie.  The gas argument bounds
the number of jumps into a replacement trie; replacement tries are
StackFixup chains, which contain no label nodes and never jump again,
so gas 1 at the top level reproduces the source recursion exactly. -/
def stripF (fuel gas : Nat) (node : Node) (accept_type : ATag)
    (rep : Option Node) : Option Node :=
  match fuel with
  | 0 => Option.none
  | fuel + 1 =>
    match node with
    | Node.label k v next => do
      let st ←
        (if k = "relative_jump" then
          match accept_type, v with
          | ATag.normal_inst, LVal.nat n => some (ATag.jump_rel n, rep)
          | _, _ => Option.none
        else if k = "requires_fixup" then
          match accept_type, v with
          | ATag.normal_inst, LVal.nat n =>
            (StackFixup n).map (fun r => (ATag.replace, some r))
          | _, _ => Option.none
        else some (accept_type, rep))
      let new ← stripF fuel gas next st.1 st.2
      if keep_label k then some (Node.label k v new) else some new
    | Node.branch ch a =>
      match a with
      | ATag.t =>
        if accept_type = ATag.replace then
          match ch, gas, rep with
          | [], g + 1, some r => stripF fuel g r ATag.normal_inst Option.none
          | [], _, _ => Option.none
          | _ :: _, _, _ => Option.none
        else do
          let ch2 ← ch.mapM (fun tn =>
            (stripF fuel gas tn.2 accept_type rep).map (fun m => (tn.1, m)))
          some (Node.branch ch2 accept_type)
      | ATag.f => do
          let ch2 ← ch.mapM (fun tn =>
            (stripF fuel gas tn.2 accept_type rep).map (fun m => (tn.1, m)))
          some (Node.branch ch2 ATag.f)
      | _ => Option.none

/-- StripDftRec with enough fuel for its input. -/
def StripDftRecG (gas : Nat) (node : Node) (accept_type : ATag)
    (rep : Option Node) : Option Node :=
  stripF (nsize node + repN rep + 20 * gas + 11) gas node accept_type rep

/-- StripDft: strip from the initial state. -/
def StripDft (node : Node) : Option Node :=
  StripDftRecG 1 node ATag.normal_inst Option.none

/-- ExpandWildcards (generator.py lines 485-496): replace each XX child
(asserted to be the only child) by 256 concrete-byte children sharing
the expanded subtree.  Implemented by recursion on a fuel argument so
that it evaluates inside the kernel; ExpandWildcards below supplies
enough fuel for it never to run out. -/
def expandF (fuel : Nat) (node : Node) : Option Node :=
  match fuel with
  | 0 => Option.none
  | fuel + 1 =>
    match node with
    | Node.label k v next => (expandF fuel next).map (fun m => Node.label k v m)
    | Node.branch ch a =>
      match childAt ch Token.XX with
      | some cXX =>
        if ch.length = 1 then
          (expandF fuel cXX).map (fun dest =>
            Node.branch ((List.range 256).map (fun b => (Token.byte b, dest))) a)
        else Option.none
      | Option.none => do
        let ch2 ← ch.mapM (fun tn =>
          (expandF fuel tn.2).map (fun m => (tn.1, m)))
        some (Node.branch ch2 a)

/-- ExpandWildcards with enough fuel for its input. -/
def ExpandWildcards (node : Node) : Option Node := expandF (nsize node + 1) node

/-- Acceptance of a byte string by a (possibly labeled) trie, by fuel
recursion (acceptsTag below supplies enough fuel): labels are
transparent, a concrete-byte child is preferred, the wildcard child
matches any byte, and the result is the accept tag of the node reached
(ATag.f when no node is reached or the node does not accept). -/
def acceptsF (fuel : Nat) (node : Node) (s : List (Fin 256)) : ATag :=
  match fuel with
  | 0 => ATag.f
  | fuel + 1 =>
    match node, s with
    | Node.label _ _ nx, s => acceptsF fuel nx s
    | Node.branch _ a, [] => a
    | Node.branch ch _, b :: s2 =>
      match childAt ch (Token.byte b.val) with
      | some c => acceptsF fuel c s2
      | Option.none =>
        match childAt ch Token.XX with
        | some c => acceptsF fuel c s2
        | Option.none => ATag.f

/-- Acceptance with enough fuel for the trie. -/
def acceptsTag (node : Node) (s : List (Fin 256)) : ATag :=
  acceptsF (nsize node + 1) node s

-- ---------------------------------------------------------------------------
-- The instruction table entry for opcode 01 (add r/m32, r32)
-- ---------------------------------------------------------------------------

/-- The labeled trie that Add emits for the one-byte opcode 01 in NaCl
mode with no REX prefix and no data16 prefix: add (rm, 32) (reg, 32),
whose first operand is canzeroextend because add is on the zero-extend
whitelist (generator.py lines 548-559, 619-771, 868-874).  In the full
NaCl root this is the only top-level entry whose byte sequence starts
with 01 — every other entry starts with a different opcode byte, a
legacy prefix (66/f2/f3/f0) or a REX byte, and no superinstruction
starts with 01 — and stripping, wildcard expansion and the
superinstruction merge all act child-wise on the root, so acceptance of
01-prefixed strings in the final DFA coincides with acceptance here. -/
def addNode01 : Option Node := do
  let imm ← ImmediateNode 0
  let node ← ModRMNode false 0 0 0 (OpSize.num 32) (OperandAttrs.mk false false)
    (OpSize.num 32) (OperandAttrs.mk false true) true true imm
  pure (TrieOfList [Token.byte 0x01]
    (DftLabels [("args", LVal.args [(true, "rm"), (true, "reg")]),
                ("instr_name", LVal.str "add")] node))

-- ---------------------------------------------------------------------------
-- Cross-check harness (objdump_check.py lines 8-12)
-- ---------------------------------------------------------------------------

/-- MapWildcard from objdump_check.py: replace the wildcard token by the
concrete byte 0x11, pass concrete bytes through. -/
def MapWildcard : Token → Token
  | Token.XX => Token.byte 0x11
  | Token.byte b => Token.byte b

/-- The byte tokens written to the assembly file for one emitted
(bytes, instruction-text) pair. -/
def AsciiBytes (bytes : List Token) : List Token := bytes.map MapWildcard

-- ---------------------------------------------------------------------------
-- Theorems
-- ---------------------------------------------------------------------------

/-- C9: in the cross-check harness, every wildcard token XX in an
emitted pair is replaced by the concrete byte 0x11 and every concrete
byte token passes through unchanged, so the byte strings written to the
assembly file are a function of the emitted tokens and contain no
wildcard. -/
theorem mapWildcard_deterministic :
    MapWildcard Token.XX = Token.byte 0x11 ∧
    (∀ b : Nat, MapWildcard (Token.byte b) = Token.byte b) ∧
    (∀ bytes : List Token, Token.XX ∉ AsciiBytes bytes) := by
  refine ⟨rfl, fun b => rfl, ?_⟩
  intro bytes h
  simp only [AsciiBytes, List.mem_map] at h
  obtain ⟨t, _, ht⟩ := h
  cases t <;> simp [MapWildcard] at ht

/-- Inversion of GetOperandRegs: characterizes exactly which register
triples are emitted and with which labels. -/
theorem getOperandRegs_mem_inv
    (attrs : OperandAttrs) (top_bit : Nat) (reglist : List String)
    (reg : Nat) (regname : String) (labels : List (String × LVal))
    (hmem : (reg, regname, labels) ∈ GetOperandRegs attrs top_bit reglist) :
    reg < 8 ∧
    regname = reglist.getD
        (reg + (if reglist.length = 16 then top_bit <<< 3 else 0)) "" ∧
    ((attrs.canzeroextend = true ∧ (regname = "esp" ∨ regname = "ebp") ∧
        labels = [("requires_fixup", LVal.nat (reg + (top_bit <<< 3)))]) ∨
     (¬(attrs.canzeroextend = true ∧ (regname = "esp" ∨ regname = "ebp")) ∧
      ¬(attrs.readonly = false ∧ regname ∈ nacl_unwritable_reg) ∧
      ((attrs.canzeroextend = true ∧ regname ∈ regs32 ∧
          labels = [("zeroextends", LVal.nat (reg + (top_bit <<< 3)))]) ∨
       (¬(attrs.canzeroextend = true ∧ regname ∈ regs32) ∧ labels = [])))) := by
  simp only [GetOperandRegs, GetExtendedRegs, List.mem_filterMap, List.mem_map,
    List.mem_range] at hmem
  obtain ⟨p, ⟨r, hr8, hpe⟩, hsome⟩ := hmem
  have hp1 : p.1 = r := by rw [← hpe]
  have hp2 : p.2 = reglist.getD
      (r + (if reglist.length = 16 then top_bit <<< 3 else 0)) "" := by rw [← hpe]
  split_ifs at hsome with h1 h2 h3
  · cases Option.some.inj hsome
    exact ⟨hp1 ▸ hr8, by rw [hp2, hp1], Or.inl ⟨h1.1, h1.2, rfl⟩⟩
  · cases Option.some.inj hsome
    exact ⟨hp1 ▸ hr8, by rw [hp2, hp1], Or.inr ⟨h1, h2, Or.inl ⟨h3.1, h3.2, rfl⟩⟩⟩
  · cases Option.some.inj hsome
    exact ⟨hp1 ▸ hr8, by rw [hp2, hp1], Or.inr ⟨h1, h2, Or.inr ⟨h3, rfl⟩⟩⟩

/-- The register lists RegsBySize can return. -/
theorem regsBySize_cases (has_rex : Bool) (size : OpSize) (reglist : List String)
    (h : RegsBySize has_rex size = some reglist) :
    reglist = regs64 ∨ reglist = regs32 ∨ reglist = regs16 ∨
    reglist = regs_x87 ∨ reglist = regs_mmx ∨ reglist = regs_xmm ∨
    reglist = regs8_original ∨ reglist = regs8_extended := by
  by_cases h8 : size = OpSize.num 8
  · rw [RegsBySize, if_pos h8] at h
    cases has_rex
    · rw [if_neg (by simp)] at h
      exact Or.inr (Or.inr (Or.inr (Or.inr (Or.inr (Or.inr (Or.inl
        (Option.some.inj h).symm))))))
    · rw [if_pos rfl] at h
      exact Or.inr (Or.inr (Or.inr (Or.inr (Or.inr (Or.inr (Or.inr
        (Option.some.inj h).symm))))))
  · rw [RegsBySize, if_neg h8] at h
    unfold regs_by_size at h
    split at h <;> simp_all

/-- In the fixed register tables, the names esp and ebp occur only at
indices 4 and 5 of the 32-bit table, so the fixup register number is
always 4 or 5. -/
theorem table_esp_ebp (reglist : List String)
    (ht : reglist = regs64 ∨ reglist = regs32 ∨ reglist = regs16 ∨
          reglist = regs_x87 ∨ reglist = regs_mmx ∨ reglist = regs_xmm ∨
          reglist = regs8_original ∨ reglist = regs8_extended)
    (reg top_bit : Nat) (hreg : reg < 8)
    (h : reglist.getD (reg + (if reglist.length = 16 then top_bit <<< 3 else 0)) "" = "esp" ∨
         reglist.getD (reg + (if reglist.length = 16 then top_bit <<< 3 else 0)) "" = "ebp") :
    reg + (top_bit <<< 3) = 4 ∨ reg + (top_bit <<< 3) = 5 := by
  have hs : top_bit <<< 3 = 8 * top_bit := by
    rw [Nat.shiftLeft_eq]; ring
  rw [hs] at h ⊢
  rcases Nat.lt_or_ge top_bit 2 with htb | htb
  · rcases ht with h1 | h1 | h1 | h1 | h1 | h1 | h1 | h1 <;> subst h1 <;>
      interval_cases top_bit <;> interval_cases reg <;>
      simp_all [regs64, regs32, regs16, regs_x87, regs_mmx, regs_xmm,
                regs8_original, regs8_extended]
  · have hlen : reglist.length = 8 ∨ reglist.length = 16 := by
      rcases ht with h1 | h1 | h1 | h1 | h1 | h1 | h1 | h1 <;> subst h1 <;> decide
    rcases hlen with h16 | h16
    · rw [if_neg (by omega)] at h
      exfalso
      rcases ht with h1 | h1 | h1 | h1 | h1 | h1 | h1 | h1 <;> subst h1 <;>
        first
          | exact absurd h16 (by decide)
          | (revert h; interval_cases reg <;> decide)
    · rw [if_pos h16] at h
      have : reglist.length ≤ reg + 8 * top_bit := by omega
      rw [List.getD_eq_default _ _ this] at h
      rcases h with h | h <;> exact absurd h (by simp)

/-- C2: in NaCl mode no register operand position (reg, rm, reg2 via
GetOperandRegs; fixreg via the inline guard) emits a non-read-only
register of the protected set, except that esp or ebp under
canzeroextend is emitted carrying exactly a requires_fixup (reg_num)
label. -/
theorem nacl_no_protected_write :
    (∀ (attrs : OperandAttrs) (top_bit : Nat) (reglist : List String)
       (reg : Nat) (regname : String) (labels : List (String × LVal)),
       (reg, regname, labels) ∈ GetOperandRegs attrs top_bit reglist →
       attrs.readonly = false →
       regname ∈ nacl_unwritable_reg →
       (regname = "esp" ∨ regname = "ebp") ∧ attrs.canzeroextend = true ∧
         labels = [("requires_fixup", LVal.nat (reg + (top_bit <<< 3)))]) ∧
    (∀ (readonly : Bool) (regname : String),
       readonly = false → regname ∈ nacl_unwritable_reg →
       FixRegAllowed readonly regname = false) := by
  constructor
  · intro attrs top_bit reglist reg regname labels hmem hro hprot
    obtain ⟨-, -, hcase⟩ := getOperandRegs_mem_inv attrs top_bit reglist reg regname labels hmem
    rcases hcase with ⟨hcz, hname, hlab⟩ | ⟨-, h2, -⟩
    · exact ⟨hname, hcz, hlab⟩
    · exact absurd ⟨hro, hprot⟩ h2
  · intro readonly regname hro hprot
    simp [FixRegAllowed, hro, hprot]

/-- Witness for C2 at a concrete input: the canzeroextend esp slot of a
32-bit operand with top bit 0. -/
theorem nacl_no_protected_write_witness :
    ("esp" = "esp" ∨ "esp" = "ebp") ∧
      (OperandAttrs.mk false true).canzeroextend = true ∧
      [("requires_fixup", LVal.nat 4)] =
        [("requires_fixup", LVal.nat (4 + (0 <<< 3)))] :=
  nacl_no_protected_write.1 (OperandAttrs.mk false true) 0 regs32 4 "esp"
    [("requires_fixup", LVal.nat 4)] (by decide) rfl (by decide)

/-- C10: every requires_fixup label attached by the register
enumeration over any register list that RegsBySize can return carries
register number 4 or 5, so the assertion in StackFixup (invoked by
StripDftRec on each such label) never fails. -/
theorem requires_fixup_reg_valid :
    ∀ (has_rex : Bool) (size : OpSize) (reglist : List String)
      (attrs : OperandAttrs) (top_bit reg : Nat) (regname : String)
      (labels : List (String × LVal)) (v : LVal),
      RegsBySize has_rex size = some reglist →
      (reg, regname, labels) ∈ GetOperandRegs attrs top_bit reglist →
      ("requires_fixup", v) ∈ labels →
      ∃ n, v = LVal.nat n ∧ (n = 4 ∨ n = 5) ∧ (StackFixup n).isSome = true := by
  intro has_rex size reglist attrs top_bit reg regname labels v hregs hmem hlab
  obtain ⟨hr8, hname, hcase⟩ :=
    getOperandRegs_mem_inv attrs top_bit reglist reg regname labels hmem
  rcases hcase with ⟨hcz, hesp, hlabs⟩ | ⟨-, -, ⟨-, -, hlabs⟩ | ⟨-, hlabs⟩⟩
  · subst hlabs
    simp only [List.mem_singleton, Prod.mk.injEq] at hlab
    obtain ⟨-, hv⟩ := hlab
    subst hv
    have hval := table_esp_ebp reglist (regsBySize_cases has_rex size reglist hregs)
      reg top_bit hr8 (by rw [← hname]; exact hesp)
    refine ⟨reg + (top_bit <<< 3), rfl, hval, ?_⟩
    rcases hval with h | h <;> rw [h] <;> decide
  · subst hlabs
    simp only [List.mem_singleton, Prod.mk.injEq] at hlab
    exact absurd hlab.1 (by decide)
  · subst hlabs
    simp at hlab

/-- Witness for C10: the esp slot of a canzeroextend 32-bit operand
yields fixup register 4. -/
theorem requires_fixup_reg_valid_witness :
    ∃ n, LVal.nat 4 = LVal.nat n ∧ (n = 4 ∨ n = 5) ∧ (StackFixup n).isSome = true :=
  requires_fixup_reg_valid false (OpSize.num 32) regs32
    (OperandAttrs.mk false true) 0 4 "esp"
    [("requires_fixup", LVal.nat 4)] (LVal.nat 4)
    (by decide) (by decide) (by decide)

/-- C1: in NaCl mode every enumerated ModR/M or SIB memory-addressing
combination that names a base register and whose operand size is not
lea_mem or prefetch_mem uses a base register in nacl_base_regs =
r15, rsp, rbp; combinations with any other base register are filtered
out by the enumerator (the RIP-relative form names no base register). -/
theorem nacl_mem_base_protected :
    (∀ (rex_x rex_b mod : Nat) (rm_size : OpSize) (disp_size : Nat)
       (disp_str : String) (e : SibEntry),
       e ∈ SibEntries rex_x rex_b mod rm_size disp_size disp_str →
       rm_size ∉ unsandboxed_mem → e.base_regname ∈ nacl_base_regs) ∧
    (∀ (rex_b : Nat) (rm_size : OpSize) (mod reg2 : Nat) (regname2 : String),
       (reg2, regname2) ∈ ModRMMemBaseEntries rex_b rm_size mod →
       rm_size ∉ unsandboxed_mem → regname2 ∈ nacl_base_regs) := by
  constructor
  · intro rex_x rex_b mod rm_size disp_size disp_str e hmem hsand
    simp only [SibEntries, List.mem_flatMap, List.mem_filterMap] at hmem
    obtain ⟨ir, hir, scale, hscale, br, hbr, hsome⟩ := hmem
    split_ifs at hsome
    all_goals cases Option.some.inj hsome
    all_goals refine not_not.mp (fun hc => ?_)
    all_goals exact absurd (And.intro hsand hc) (by assumption)
  · intro rex_b rm_size mod reg2 regname2 hmem hsand
    simp only [ModRMMemBaseEntries, List.mem_filterMap] at hmem
    obtain ⟨br, hbr, hsome⟩ := hmem
    split_ifs at hsome
    all_goals cases Option.some.inj hsome
    all_goals refine not_not.mp (fun hc => ?_)
    all_goals exact absurd (And.intro hsand hc) (by assumption)

/-- Witness for C1 at a concrete input: for a sandboxed 32-bit size at
mod 1, the first emitted SIB combination has base rsp, and the base
loop emits rbp. -/
theorem nacl_mem_base_protected_witness :
    "rsp" ∈ nacl_base_regs ∧ "rbp" ∈ nacl_base_regs := by
  constructor
  · exact nacl_mem_base_protected.1 0 0 1 (OpSize.num 32) 1 "VALUE8"
      (SibEntry.mk 0 "rax" 0 4 "rsp"
        [("requires_zeroextend", LVal.nat 0), ("test_keep", LVal.bool false),
         ("rm_arg", LVal.str "DWORD PTR [rsp+rax*1+VALUE8]")] 0)
      (by decide) (by decide)
  · exact nacl_mem_base_protected.2 0 (OpSize.num 32) 1 5 "rbp" (by decide)
      (by decide)



set_option maxRecDepth 10000 in
/-- C3: in the stripped and wildcard-expanded NaCl DFA, the two-byte
string 01 c4 (add esp, eax) is not accepted, while the five-byte string
01 c4 4c 01 fc (the same encoding followed by the add r15, rsp fixup
bytes) is accepted with accept kind normal_inst.  The byte 01 reaches
only the addNode01 subtree of the full DFA (see its doc comment), so
the property is stated on that subtree. -/
theorem dfa01_fixup_acceptance :
    ((addNode01.bind StripDft).bind ExpandWildcards).map
      (fun e => (acceptsTag e [Fin.ofNat 0x01, Fin.ofNat 0xc4],
                 acceptsTag e [Fin.ofNat 0x01, Fin.ofNat 0xc4, Fin.ofNat 0x4c,
                               Fin.ofNat 0x01, Fin.ofNat 0xfc])) =
    some (ATag.f, ATag.normal_inst) := by decide

-- Acceptance and wildcard-expansion lemmas (C6)

theorem acceptsF_stable : ∀ (f g : Nat) (n : Node) (s : List (Fin 256)),
    nsize n < f → nsize n < g → acceptsF f n s = acceptsF g n s := by
  intro f
  induction f with
  | zero => intro g n s hf; omega
  | succ f ih =>
    intro g n s hf hg
    have hpos := node_nsize_pos n
    match g, hg with
    | g + 1, hg =>
      match n, s with
      | Node.label k v nx, s =>
        simp only [acceptsF]
        exact ih g nx s (by rw [nsize_label] at hf; omega)
          (by rw [nsize_label] at hg; omega)
      | Node.branch ch a, [] => rfl
      | Node.branch ch a, b :: s2 =>
        simp only [acceptsF]
        cases hc : childAt ch (Token.byte b.val) with
        | some c =>
          have hs := childAt_nsize hc
          rw [nsize_branch] at hf hg
          exact ih g c s2 (by omega) (by omega)
        | none =>
          cases hx : childAt ch Token.XX with
          | some c =>
            have hs := childAt_nsize hx
            rw [nsize_branch] at hf hg
            exact ih g c s2 (by omega) (by omega)
          | none => rfl

theorem acceptsTag_eq_fuel (f : Nat) (n : Node) (s : List (Fin 256))
    (hf : nsize n < f) : acceptsTag n s = acceptsF f n s :=
  acceptsF_stable (nsize n + 1) f n s (by omega) hf

theorem acceptsTag_label (k : String) (v : LVal) (nx : Node) (s : List (Fin 256)) :
    acceptsTag (Node.label k v nx) s = acceptsTag nx s := by
  have h1 : acceptsTag (Node.label k v nx) s
      = acceptsF (nsize (Node.label k v nx)) nx s := rfl
  rw [h1, ← acceptsTag_eq_fuel]
  rw [nsize_label]
  omega

theorem acceptsTag_nil (ch : List (Token × Node)) (a : ATag) :
    acceptsTag (Node.branch ch a) [] = a := rfl

theorem acceptsTag_cons (ch : List (Token × Node)) (a : ATag) (b : Fin 256)
    (s : List (Fin 256)) :
    acceptsTag (Node.branch ch a) (b :: s) =
      (match childAt ch (Token.byte b.val) with
       | some c => acceptsTag c s
       | Option.none =>
         match childAt ch Token.XX with
         | some c => acceptsTag c s
         | Option.none => ATag.f) := by
  cases hc : childAt ch (Token.byte b.val) with
  | some c =>
    have hs := childAt_nsize hc
    have h2 : acceptsTag (Node.branch ch a) (b :: s)
        = acceptsF (nsize (Node.branch ch a)) c s := by
      show acceptsF (nsize (Node.branch ch a) + 1) (Node.branch ch a) (b :: s) = _
      simp only [acceptsF, hc]
    exact h2.trans (acceptsTag_eq_fuel _ c s (by rw [nsize_branch]; omega)).symm
  | none =>
    cases hx : childAt ch Token.XX with
    | some c =>
      have hs := childAt_nsize hx
      have h2 : acceptsTag (Node.branch ch a) (b :: s)
          = acceptsF (nsize (Node.branch ch a)) c s := by
        show acceptsF (nsize (Node.branch ch a) + 1) (Node.branch ch a) (b :: s) = _
        simp only [acceptsF, hc, hx]
      exact h2.trans (acceptsTag_eq_fuel _ c s (by rw [nsize_branch]; omega)).symm
    | none =>
      show acceptsF (nsize (Node.branch ch a) + 1) (Node.branch ch a) (b :: s) = _
      simp only [acceptsF, hc, hx]

theorem nsizeCh_cons2 (p : Token × Node) (r : List (Token × Node)) :
    nsizeCh (p :: r) = nsize p.2 + nsizeCh r := by
  cases p
  rfl

theorem mapM_children_childAt {F : Node → Option Node}
    (ch ch2 : List (Token × Node))
    (h : ch.mapM (fun tn => (F tn.2).map (fun m => (tn.1, m))) = some ch2)
    (k : Token) :
    (∀ c, childAt ch k = some c →
       ∃ c2, F c = some c2 ∧ childAt ch2 k = some c2) ∧
    (childAt ch k = Option.none → childAt ch2 k = Option.none) := by
  induction ch generalizing ch2 with
  | nil =>
    simp only [List.mapM_nil, pure, Option.some.injEq] at h
    subst h
    exact ⟨fun c hc => by simp [childAt] at hc, fun _ => rfl⟩
  | cons hd tl ih =>
    obtain ⟨t, n⟩ := hd
    rw [List.mapM_cons] at h
    cases hF : F n with
    | none => rw [hF] at h; simp at h
    | some m =>
      simp only [hF, Option.map_some', Option.bind_eq_bind, Option.some_bind,
        Option.bind_eq_some', Option.pure_def, Option.some.injEq] at h
      obtain ⟨rest, hrest, hch2⟩ := h
      subst hch2
      constructor
      · intro c hc
        rw [childAt] at hc
        by_cases ht : t = k
        · rw [if_pos ht] at hc
          cases Option.some.inj hc
          exact ⟨m, hF, by rw [childAt, if_pos ht]⟩
        · rw [if_neg ht] at hc
          obtain ⟨c2, hc2, hat⟩ := (ih rest hrest).1 c hc
          exact ⟨c2, hc2, by rw [childAt, if_neg ht]; exact hat⟩
      · intro hc
        rw [childAt] at hc
        by_cases ht : t = k
        · rw [if_pos ht] at hc; exact Option.noConfusion hc
        · rw [if_neg ht] at hc
          rw [childAt, if_neg ht]
          exact (ih rest hrest).2 hc

theorem expandF_stable : ∀ (f g : Nat) (n : Node),
    nsize n < f → nsize n < g → expandF f n = expandF g n := by
  intro f
  induction f with
  | zero => intro g n hf; omega
  | succ f ih =>
    intro g n hf hg
    have hpos := node_nsize_pos n
    match g, hg with
    | g + 1, hg =>
      match n with
      | Node.label k v nx =>
        simp only [expandF]
        rw [ih g nx (by rw [nsize_label] at hf; omega)
          (by rw [nsize_label] at hg; omega)]
      | Node.branch ch a =>
        rw [nsize_branch] at hf hg
        cases hXX : childAt ch Token.XX with
        | some cXX =>
          have hs := childAt_nsize hXX
          simp only [expandF, hXX]
          rw [ih g cXX (by omega) (by omega)]
        | none =>
          simp only [expandF, hXX]
          have hch : ∀ (l : List (Token × Node)), nsizeCh l ≤ nsizeCh ch →
              l.mapM (fun tn => (expandF f tn.2).map (fun m => (tn.1, m)))
                = l.mapM (fun tn => (expandF g tn.2).map (fun m => (tn.1, m))) := by
            intro l
            induction l with
            | nil => intro _; rfl
            | cons hd tl iht =>
              intro hle
              rw [nsizeCh_cons2] at hle
              have hp := node_nsize_pos hd.2
              have h1 : expandF f hd.2 = expandF g hd.2 :=
                ih g hd.2 (by omega) (by omega)
              rw [List.mapM_cons, List.mapM_cons, h1, iht (by omega)]
          rw [hch ch (le_refl _)]

theorem childAt_rangeMap (d : Node) : ∀ (L : List Nat) (v : Nat), v ∈ L →
    childAt (L.map (fun x => (Token.byte x, d))) (Token.byte v) = some d := by
  intro L
  induction L with
  | nil => intro v hv; simp at hv
  | cons x r ih =>
    intro v hv
    rw [List.map_cons, childAt]
    by_cases hx : Token.byte x = Token.byte v
    · rw [if_pos hx]
    · rw [if_neg hx]
      apply ih
      rcases List.mem_cons.mp hv with h | h
      · exact absurd (by rw [h]) hx
      · exact h

theorem childAt_XX_singleton (ch : List (Token × Node)) (c : Node)
    (h : childAt ch Token.XX = some c) (hl : ch.length = 1) :
    ch = [(Token.XX, c)] := by
  match ch, hl with
  | [(t, n)], _ =>
    rw [childAt] at h
    split_ifs at h with ht
    · cases Option.some.inj h
      rw [ht]
    · rw [childAt] at h
      exact Option.noConfusion h

theorem expandF_preserves : ∀ (f : Nat) (n m : Node), nsize n < f →
    expandF f n = some m → ∀ s : List (Fin 256),
    acceptsTag m s = acceptsTag n s := by
  intro f
  induction f with
  | zero => intro n m hf; omega
  | succ f ih =>
    intro n m hf hexp s
    match n with
    | Node.label k v nx =>
      rw [nsize_label] at hf
      simp only [expandF, Option.map_eq_some'] at hexp
      obtain ⟨m2, hm2, hm⟩ := hexp
      subst hm
      rw [acceptsTag_label, acceptsTag_label]
      exact ih nx m2 (by omega) hm2 s
    | Node.branch ch a =>
      rw [nsize_branch] at hf
      cases hXX : childAt ch Token.XX with
      | some cXX =>
        simp only [expandF, hXX] at hexp
        split_ifs at hexp with hlen
        · simp only [Option.map_eq_some'] at hexp
          obtain ⟨dest, hdest, hm⟩ := hexp
          subst hm
          have hsing := childAt_XX_singleton ch cXX hXX hlen
          subst hsing
          have hcs : nsize cXX ≤ nsizeCh [(Token.XX, cXX)] := childAt_nsize hXX
          cases s with
          | nil => rw [acceptsTag_nil, acceptsTag_nil]
          | cons b s2 =>
            rw [acceptsTag_cons, acceptsTag_cons]
            rw [childAt_rangeMap dest (List.range 256) b.val
              (List.mem_range.mpr b.isLt)]
            have hb : childAt [(Token.XX, cXX)] (Token.byte b.val)
                = Option.none := by
              rw [childAt]
              rw [if_neg (by simp)]
              rfl
            rw [hb, hXX]
            have h3 : nsizeCh [(Token.XX, cXX)] = nsize cXX + nsizeCh [] :=
              nsizeCh_cons2 _ _
            rw [nsizeCh_nil] at h3
            exact ih cXX dest (by omega) hdest s2
      | none =>
        simp only [expandF, hXX, Option.bind_eq_bind, Option.bind_eq_some',
          Option.some.injEq] at hexp
        obtain ⟨ch2, hch2, hm⟩ := hexp
        subst hm
        cases s with
        | nil => rw [acceptsTag_nil, acceptsTag_nil]
        | cons b s2 =>
          rw [acceptsTag_cons, acceptsTag_cons]
          have hchar := mapM_children_childAt ch ch2 hch2
          cases hcb : childAt ch (Token.byte b.val) with
          | some c =>
            obtain ⟨c2, hc2, hat⟩ := (hchar (Token.byte b.val)).1 c hcb
            rw [hat]
            have hsz := childAt_nsize hcb
            exact ih c c2 (by omega) hc2 s2
          | none =>
            rw [(hchar (Token.byte b.val)).2 hcb, (hchar Token.XX).2 hXX, hXX]

/-- C6: ExpandWildcards preserves the accepted language, and an XX
child (necessarily the only child) is replaced by 256 concrete-byte
children all pointing to the shared expanded subtree. -/
theorem expandWildcards_preserves :
    (∀ (n m : Node), ExpandWildcards n = some m →
       ∀ s : List (Fin 256), acceptsTag m s = acceptsTag n s) ∧
    (∀ (c : Node) (a : ATag),
       ExpandWildcards (Node.branch [(Token.XX, c)] a) =
         (ExpandWildcards c).map (fun dest =>
           Node.branch ((List.range 256).map (fun b => (Token.byte b, dest))) a)) := by
  constructor
  · intro n m hexp s
    exact expandF_preserves (nsize n + 1) n m (by omega) hexp s
  · intro c a
    show expandF (nsize (Node.branch [(Token.XX, c)] a) + 1) _ = _
    have hXX : childAt [(Token.XX, c)] Token.XX = some c := by
      rw [childAt, if_pos rfl]
    simp only [expandF, hXX, List.length_singleton, if_pos rfl]
    rw [expandF_stable (nsize (Node.branch [(Token.XX, c)] a)) (nsize c + 1) c
      (by rw [nsize_branch, nsizeCh_cons2]; have := node_nsize_pos c; simp; omega)
      (by omega)]
    rfl

/-- Witness for C6: expanding a single wildcard edge to the accepting
leaf preserves acceptance of the byte 7. -/
theorem expandWildcards_preserves_witness :
    acceptsTag (Node.branch ((List.range 256).map
        (fun b => (Token.byte b, AcceptNode))) ATag.f) [Fin.ofNat 7] =
      acceptsTag (TrieOfList [Token.XX] AcceptNode) [Fin.ofNat 7] :=
  expandWildcards_preserves.1 (TrieOfList [Token.XX] AcceptNode)
    (Node.branch ((List.range 256).map (fun b => (Token.byte b, AcceptNode))) ATag.f)
    (by rfl) [Fin.ofNat 7]


-- Strip stability and unfolding lemmas (C4, C5)

/-- Fuel padding per accept kind, used only in fuel-sufficiency
conditions for stripF. -/
def padA : ATag → Nat
  | ATag.normal_inst => 10
  | ATag.replace => 5
  | _ => 0

/-- The fixup chain for register n, before stripping. -/
def stackChain (n : Nat) : Node :=
  TrieOfList [Token.byte 0x4c, Token.byte 0x01, Token.byte (0xf8 ||| n)] AcceptNode

theorem stackFixup_eq (n : Nat) :
    StackFixup n = if n = 4 ∨ n = 5 then some (stackChain n) else Option.none := rfl

theorem stackFixup_nsize (n : Nat) (r : Node) (h : StackFixup n = some r) :
    nsize r = 4 := by
  rw [stackFixup_eq] at h
  split_ifs at h
  cases Option.some.inj h
  rfl

theorem padA_le (a : ATag) : padA a ≤ 10 := by
  cases a <;> simp [padA]

theorem stripF_stable : ∀ (f g gas : Nat) (node : Node) (accept_type : ATag)
    (rep : Option Node),
    nsize node + repN rep + padA accept_type + 20 * gas < f →
    nsize node + repN rep + padA accept_type + 20 * gas < g →
    stripF f gas node accept_type rep = stripF g gas node accept_type rep := by
  intro f
  induction f with
  | zero => intro g gas node a r hf; have := node_nsize_pos node; omega
  | succ f ih =>
    intro g gas node accept_type rep hf hg
    have hpos := node_nsize_pos node
    match g, hg with
    | g + 1, hg =>
      match node with
      | Node.label k v next =>
        rw [nsize_label] at hf hg
        simp only [stripF]
        apply Option.bind_congr
        intro st hst
        rw [Option.mem_def] at hst
        have hnext : stripF f gas next st.1 st.2 = stripF g gas next st.1 st.2 := by
          by_cases hk1 : k = "relative_jump"
          · rw [if_pos hk1] at hst
            match accept_type, v, hst with
            | ATag.normal_inst, LVal.nat n, hst =>
              dsimp only at hst
              cases Option.some.inj hst
              apply ih
              · simp only [padA] at hf ⊢
                omega
              · simp only [padA] at hg ⊢
                omega
          · rw [if_neg hk1] at hst
            by_cases hk2 : k = "requires_fixup"
            · rw [if_pos hk2] at hst
              match accept_type, v, hst with
              | ATag.normal_inst, LVal.nat n, hst =>
                dsimp only at hst
                cases hsf : StackFixup n with
                | none => rw [hsf] at hst; simp at hst
                | some r =>
                  rw [hsf] at hst
                  simp only [Option.map_some', Option.some.injEq] at hst
                  cases hst.symm
                  have h4 := stackFixup_nsize n r hsf
                  apply ih
                  · simp only [repN, padA, h4] at hf ⊢
                    omega
                  · simp only [repN, padA, h4] at hg ⊢
                    omega
            · rw [if_neg hk2] at hst
              cases Option.some.inj hst
              dsimp only
              apply ih <;> omega
        rw [hnext]
      | Node.branch ch a =>
        rw [nsize_branch] at hf hg
        match a with
        | ATag.t =>
          simp only [stripF]
          by_cases hrep : accept_type = ATag.replace
          · rw [if_pos hrep, if_pos hrep]
            match ch, gas, rep with
            | [], gs + 1, some r =>
              subst hrep
              apply ih
              · simp only [repN, padA] at hf ⊢
                omega
              · simp only [repN, padA] at hg ⊢
                omega
            | [], 0, _ => rfl
            | [], _ + 1, Option.none => rfl
            | _ :: _, _, _ => rfl
          · rw [if_neg hrep, if_neg hrep]
            have hch : ∀ (l : List (Token × Node)), nsizeCh l ≤ nsizeCh ch →
                l.mapM (fun tn => (stripF f gas tn.2 accept_type rep).map
                  (fun m => (tn.1, m)))
                  = l.mapM (fun tn => (stripF g gas tn.2 accept_type rep).map
                    (fun m => (tn.1, m))) := by
              intro l
              induction l with
              | nil => intro _; rfl
              | cons hd tl iht =>
                intro hle
                rw [nsizeCh_cons2] at hle
                have hp := node_nsize_pos hd.2
                have h1 : stripF f gas hd.2 accept_type rep
                    = stripF g gas hd.2 accept_type rep :=
                  ih g gas hd.2 accept_type rep (by omega) (by omega)
                rw [List.mapM_cons, List.mapM_cons, h1, iht (by omega)]
            rw [hch ch (le_refl _)]
        | ATag.f =>
          simp only [stripF]
          have hch : ∀ (l : List (Token × Node)), nsizeCh l ≤ nsizeCh ch →
              l.mapM (fun tn => (stripF f gas tn.2 accept_type rep).map
                (fun m => (tn.1, m)))
                = l.mapM (fun tn => (stripF g gas tn.2 accept_type rep).map
                  (fun m => (tn.1, m))) := by
            intro l
            induction l with
            | nil => intro _; rfl
            | cons hd tl iht =>
              intro hle
              rw [nsizeCh_cons2] at hle
              have hp := node_nsize_pos hd.2
              have h1 : stripF f gas hd.2 accept_type rep
                  = stripF g gas hd.2 accept_type rep :=
                ih g gas hd.2 accept_type rep (by omega) (by omega)
              rw [List.mapM_cons, List.mapM_cons, h1, iht (by omega)]
          rw [hch ch (le_refl _)]
        | ATag.normal_inst => rfl
        | ATag.jump_rel n => rfl
        | ATag.superinst_start => rfl
        | ATag.replace => rfl

theorem stripF_label_eq (f gas : Nat) (k : String) (v : LVal) (next : Node)
    (a : ATag) (rep : Option Node) :
    stripF (f + 1) gas (Node.label k v next) a rep = (do
      let st ←
        (if k = "relative_jump" then
          match a, v with
          | ATag.normal_inst, LVal.nat n => some (ATag.jump_rel n, rep)
          | _, _ => Option.none
        else if k = "requires_fixup" then
          match a, v with
          | ATag.normal_inst, LVal.nat n =>
            (StackFixup n).map (fun r => (ATag.replace, some r))
          | _, _ => Option.none
        else some (a, rep))
      let new ← stripF f gas next st.1 st.2
      if keep_label k then some (Node.label k v new) else some new) := rfl

theorem stripF_branch_t_replace (f gas : Nat) (ch : List (Token × Node))
    (rep : Option Node) :
    stripF (f + 1) gas (Node.branch ch ATag.t) ATag.replace rep =
      match ch, gas, rep with
      | [], g + 1, some r => stripF f g r ATag.normal_inst Option.none
      | [], _, _ => Option.none
      | _ :: _, _, _ => Option.none := rfl

theorem stripF_chain : ∀ (bs : List Nat) (fuel gas : Nat),
    nsize (TrieOfList (bs.map Token.byte) AcceptNode) < fuel →
    stripF fuel gas (TrieOfList (bs.map Token.byte) AcceptNode)
        ATag.normal_inst Option.none
      = some (TrieOfList (bs.map Token.byte)
          (Node.branch [] ATag.normal_inst)) := by
  intro bs
  induction bs with
  | nil =>
    intro fuel gas hf
    match fuel, hf with
    | f + 1, _ => rfl
  | cons b rest ih =>
    intro fuel gas hf
    match fuel, hf with
    | f + 1, hf =>
      have hb : nsize (TrieOfList ((b :: rest).map Token.byte) AcceptNode)
          = 1 + nsize (TrieOfList (rest.map Token.byte) AcceptNode) := by
        simp only [List.map_cons, TrieOfList, List.foldr, nsize_branch, nsizeCh_cons,
          nsizeCh_nil]
        omega
      rw [hb] at hf
      show stripF (f + 1) gas
          (Node.branch [(Token.byte b, TrieOfList (rest.map Token.byte) AcceptNode)]
            ATag.f) ATag.normal_inst Option.none = _
      simp only [stripF, List.mapM_cons, List.mapM_nil]
      rw [ih f gas (by omega)]
      rfl

theorem acceptsTag_byteChain : ∀ (bs : List Nat) (s : List (Fin 256)),
    acceptsTag (TrieOfList (bs.map Token.byte) (Node.branch [] ATag.normal_inst)) s
      = if s.map Fin.val = bs then ATag.normal_inst else ATag.f := by
  intro bs
  induction bs with
  | nil =>
    intro s
    cases s with
    | nil => rfl
    | cons b s2 =>
      show acceptsTag (Node.branch [] ATag.normal_inst) (b :: s2) = _
      rw [acceptsTag_cons]
      simp [childAt]
  | cons v rest ih =>
    intro s
    cases s with
    | nil =>
      show acceptsTag (Node.branch [(Token.byte v, _)] ATag.f) [] = _
      rw [acceptsTag_nil]
      simp
    | cons b s2 =>
      show acceptsTag (Node.branch
        [(Token.byte v, TrieOfList (rest.map Token.byte)
          (Node.branch [] ATag.normal_inst))] ATag.f) (b :: s2) = _
      rw [acceptsTag_cons]
      by_cases hv : v = b.val
      · subst hv
        rw [childAt, if_pos rfl]
        dsimp only
        rw [ih s2]
        simp
      · rw [childAt, if_neg (by simp [hv]), childAt]
        rw [childAt, if_neg (by simp), childAt]
        dsimp only
        simp only [List.map_cons, List.cons.injEq]
        rw [if_neg (by intro hcon; exact hv hcon.1.symm)]

/-- C4: during stripping, a requires_fixup (n) label under accept kind
normal_inst switches the state to replace with the interned chain
4c 01 (f8 or n) ending in an accepting node as the pending replacement;
the accepting node then reached must be childless and is replaced by the
stripped chain; and the stripped chain accepts exactly the byte string
4c 01 (f8 or n) with kind normal_inst, so every encoding carrying the
label ends, after stripping, in those bytes. -/
theorem strip_requires_fixup :
    (∀ (gas : Nat) (next : Node) (n : Nat) (rep : Option Node),
       StripDftRecG gas (Node.label "requires_fixup" (LVal.nat n) next)
           ATag.normal_inst rep =
         (StackFixup n).bind (fun r => StripDftRecG gas next ATag.replace (some r))) ∧
    (∀ (gas : Nat) (r : Node),
       StripDftRecG (gas + 1) (Node.branch [] ATag.t) ATag.replace (some r) =
         StripDftRecG gas r ATag.normal_inst Option.none) ∧
    (∀ (gas : Nat) (p : Token × Node) (ch : List (Token × Node)) (rep : Option Node),
       StripDftRecG gas (Node.branch (p :: ch) ATag.t) ATag.replace rep =
         Option.none) ∧
    (∀ (n : Nat), (n = 4 ∨ n = 5) → ∀ (r out : Node),
       StackFixup n = some r → StripDft r = some out →
       ∀ s : List (Fin 256),
         acceptsTag out s =
           if s.map Fin.val = [0x4c, 0x01, 0xf8 ||| n] then ATag.normal_inst
           else ATag.f) := by
  refine ⟨?_, ?_, ?_, ?_⟩
  · intro gas next n rep
    simp only [StripDftRecG]
    rw [show nsize (Node.label "requires_fixup" (LVal.nat n) next) + repN rep
          + 20 * gas + 11
        = (nsize next + repN rep + 20 * gas + 11) + 1 from by
      rw [nsize_label]; omega]
    rw [stripF_label_eq]
    rw [if_neg (by decide), if_pos rfl]
    dsimp only
    cases hsf : StackFixup n with
    | none => rfl
    | some r =>
      have h4 := stackFixup_nsize n r hsf
      simp only [Option.map_some', Option.some_bind, Option.bind_eq_bind]
      have hstep : stripF (nsize next + repN rep + 20 * gas + 11) gas next
            ATag.replace (some r)
          = stripF (nsize next + repN (some r) + 20 * gas + 11) gas next
            ATag.replace (some r) := by
        apply stripF_stable
        · simp only [repN, padA, h4]
          omega
        · simp only [repN, padA, h4]
          omega
      rw [hstep]
      cases stripF (nsize next + repN (some r) + 20 * gas + 11) gas next
          ATag.replace (some r) with
      | none => rfl
      | some m => rfl
  · intro gas r
    simp only [StripDftRecG]
    rw [show nsize (Node.branch [] ATag.t) + repN (some r) + 20 * (gas + 1) + 11
        = (nsize r + 20 * gas + 31) + 1 from by
      rw [nsize_branch, nsizeCh_nil]; simp only [repN]; omega]
    rw [stripF_branch_t_replace]
    show stripF (nsize r + 20 * gas + 31) gas r ATag.normal_inst Option.none = _
    apply stripF_stable
    · simp only [repN, padA]
      omega
    · simp only [repN, padA]
      omega
  · intro gas p ch rep
    simp only [StripDftRecG]
    rw [show nsize (Node.branch (p :: ch) ATag.t) + repN rep + 20 * gas + 11
        = (nsizeCh (p :: ch) + repN rep + 20 * gas + 11) + 1 from by
      rw [nsize_branch]; omega]
    rw [stripF_branch_t_replace]
  · intro n hn r out hsf hout s
    rw [stackFixup_eq, if_pos hn] at hsf
    cases Option.some.inj hsf
    have hchain : stackChain n
        = TrieOfList ([0x4c, 0x01, 0xf8 ||| n].map Token.byte) AcceptNode := rfl
    rw [StripDft, StripDftRecG, hchain] at hout
    rw [stripF_chain [0x4c, 0x01, 0xf8 ||| n] _ _ (by omega)] at hout
    cases Option.some.inj hout
    exact acceptsTag_byteChain [0x4c, 0x01, 0xf8 ||| n] s

/-- Witness for C4 at register 4: the stripped fixup chain accepts
4c 01 fc. -/
theorem strip_requires_fixup_witness :
    acceptsTag (TrieOfList ([0x4c, 0x01, 0xfc].map Token.byte)
        (Node.branch [] ATag.normal_inst))
        ([Fin.ofNat 0x4c, Fin.ofNat 0x01, Fin.ofNat 0xfc] : List (Fin 256)) =
      ATag.normal_inst := by
  have h := strip_requires_fixup.2.2.2 4 (Or.inl rfl) (stackChain 4)
    (TrieOfList ([0x4c, 0x01, 0xfc].map Token.byte) (Node.branch [] ATag.normal_inst))
    (by rfl) (by rfl)
    ([Fin.ofNat 0x4c, Fin.ofNat 0x01, Fin.ofNat 0xfc] : List (Fin 256))
  rw [h]
  decide

-- ---------------------------------------------------------------------------
-- C5: the stripped DFA accepts the same byte strings as the labeled trie,
-- modulo substituting requires_fixup tails by the fixup bytes.
-- ---------------------------------------------------------------------------

/-- General one-step unfolding of stripF at a branch node. -/
theorem stripF_branch_eq (f gas : Nat) (ch : List (Token × Node)) (a0 : ATag)
    (a : ATag) (rep : Option Node) :
    stripF (f + 1) gas (Node.branch ch a0) a rep =
      match a0 with
      | ATag.t =>
        if a = ATag.replace then
          match ch, gas, rep with
          | [], g + 1, some r => stripF f g r ATag.normal_inst Option.none
          | [], _, _ => Option.none
          | _ :: _, _, _ => Option.none
        else (ch.mapM (fun tn =>
            (stripF f gas tn.2 a rep).map (fun m => (tn.1, m)))).bind
          (fun ch2 => some (Node.branch ch2 a))
      | ATag.f => (ch.mapM (fun tn =>
            (stripF f gas tn.2 a rep).map (fun m => (tn.1, m)))).bind
          (fun ch2 => some (Node.branch ch2 ATag.f))
      | _ => Option.none := by
  cases a0 <;> rfl

/-- A stripped byte chain is the same chain ending in a normal_inst accept,
whatever fuel made the strip succeed. -/
theorem stripF_chain_succ : ∀ (bs : List Nat) (fuel gas : Nat) (out : Node),
    stripF fuel gas (TrieOfList (bs.map Token.byte) AcceptNode)
      ATag.normal_inst Option.none = some out →
    out = TrieOfList (bs.map Token.byte) (Node.branch [] ATag.normal_inst) := by
  intro bs
  induction bs with
  | nil =>
    intro fuel gas out h
    cases fuel with
    | zero => simp [stripF] at h
    | succ f =>
      have he : stripF (f + 1) gas (TrieOfList (([] : List Nat).map Token.byte)
            AcceptNode) ATag.normal_inst Option.none
          = some (Node.branch [] ATag.normal_inst) := rfl
      rw [he] at h
      cases Option.some.inj h
      rfl
  | cons b rest ih =>
    intro fuel gas out h
    cases fuel with
    | zero => simp [stripF] at h
    | succ f =>
      rw [show TrieOfList ((b :: rest).map Token.byte) AcceptNode
          = Node.branch [(Token.byte b, TrieOfList (rest.map Token.byte) AcceptNode)]
            ATag.f from rfl] at h
      rw [stripF_branch_eq] at h
      rw [List.mapM_cons, List.mapM_nil] at h
      cases hc : stripF f gas (TrieOfList (rest.map Token.byte) AcceptNode)
          ATag.normal_inst Option.none with
      | none => rw [hc] at h; simp at h
      | some m =>
        rw [hc] at h
        simp only [Option.map_some', Option.some_bind, Option.bind_eq_bind,
          Option.pure_def, Option.some.injEq] at h
        rw [ih f gas m hc] at h
        rw [← h]
        rfl

/-- The fixup bytes as DFA input symbols. -/
def fixBytes (n : Nat) : List (Fin 256) :=
  [Fin.ofNat 0x4c, Fin.ofNat 0x01, Fin.ofNat (0xf8 ||| n)]

theorem fixBytes_val (n : Nat) (hn : n = 4 ∨ n = 5) (s : List (Fin 256)) :
    s.map Fin.val = [0x4c, 0x01, 0xf8 ||| n] ↔ s = fixBytes n := by
  have h2 : (fixBytes n).map Fin.val = [0x4c, 0x01, 0xf8 ||| n] := by
    rcases hn with h | h <;> subst h <;> decide
  constructor
  · intro h
    exact List.map_injective_iff.mpr Fin.val_injective (h.trans h2.symm)
  · intro h
    rw [h, h2]

mutual

/-- Well-formedness of the tries the enumerator produces: children carry
pairwise distinct tokens (they come from interned dictionaries), and a
wildcard child is always an only child (wildcards are introduced only by
chains and never merged beside a concrete byte). -/
def wfNode : Node → Bool
  | Node.label _ _ next => wfNode next
  | Node.branch ch _ =>
    (decide ((ch.map Prod.fst).Nodup) &&
      (!(decide (Token.XX ∈ ch.map Prod.fst)) || decide (ch.length = 1))) &&
    wfChAll ch

def wfChAll : List (Token × Node) → Bool
  | [] => true
  | (_, n) :: rest => wfNode n && wfChAll rest

end

mutual

/-- Modelled from the spec: the acceptance language of a labeled trie, as
the spec describes it for the strip-preservation claim — a byte string is
accepted when some path to an accepting branch spells it, concatenating
byte tokens with XX matching any byte; crossing a requires_fixup (n)
label substitutes the tail at the accepting (childless) node by the fixup
byte sequence 4c 01 (f8 or n). -/
def SpecAccept : Node → Option Nat → List (Fin 256) → Bool
  | Node.label k v next, fx, s =>
    if k = "requires_fixup" then
      match v with
      | LVal.nat n => SpecAccept next (some n) s
      | _ => SpecAccept next fx s
    else SpecAccept next fx s
  | Node.branch ch a, fx, s =>
    (match fx with
     | some n => decide (a = ATag.t) && ch.isEmpty && decide (s = fixBytes n)
     | Option.none => decide (a = ATag.t) && decide (s = []))
    || (match s with
        | [] => false
        | b :: s2 => SpecAny ch fx b s2)

def SpecAny : List (Token × Node) → Option Nat → Fin 256 → List (Fin 256) → Bool
  | [], _, _, _ => false
  | (t, c) :: rest, fx, b, s2 =>
    ((decide (t = Token.byte b.val) || decide (t = Token.XX)) && SpecAccept c fx s2)
      || SpecAny rest fx b s2

end

theorem specAny_none (fx : Option Nat) (b : Fin 256) (s2 : List (Fin 256)) :
    ∀ (rest : List (Token × Node)),
    Token.byte b.val ∉ rest.map Prod.fst → Token.XX ∉ rest.map Prod.fst →
    SpecAny rest fx b s2 = false := by
  intro rest
  induction rest with
  | nil => intro _ _; rfl
  | cons hd tl ih =>
    intro h1 h2
    obtain ⟨t, c⟩ := hd
    simp only [List.map_cons, List.mem_cons, not_or] at h1 h2
    simp only [SpecAny]
    rw [decide_eq_false (fun hcon => h1.1 hcon.symm),
        decide_eq_false (fun hcon => h2.1 hcon.symm)]
    simp [ih h1.2 h2.2]

theorem specAny_lookup (fx : Option Nat) (b : Fin 256) (s2 : List (Fin 256)) :
    ∀ (ch : List (Token × Node)),
    (ch.map Prod.fst).Nodup →
    (Token.XX ∈ ch.map Prod.fst → ch.length = 1) →
    SpecAny ch fx b s2 =
      (match childAt ch (Token.byte b.val) with
       | some c => SpecAccept c fx s2
       | Option.none =>
         match childAt ch Token.XX with
         | some c => SpecAccept c fx s2
         | Option.none => false) := by
  intro ch
  induction ch with
  | nil => intro _ _; rfl
  | cons hd tl ih =>
    intro hnodup hxx
    obtain ⟨t, c⟩ := hd
    cases t with
    | XX =>
      have hlen : tl = [] := by
        have h1 := hxx (by simp)
        cases tl with
        | nil => rfl
        | cons x xs => simp at h1
      subst hlen
      show SpecAny [(Token.XX, c)] fx b s2 = _
      rw [childAt, if_neg (by simp), childAt]
      rw [childAt, if_pos rfl]
      simp [SpecAny]
    | byte v =>
      have hXXtl : Token.XX ∉ tl.map Prod.fst := by
        intro hmem
        have h1 := hxx (by simp [hmem])
        cases tl with
        | nil => simp at hmem
        | cons x xs => simp at h1
      by_cases hv : v = b.val
      · subst hv
        rw [childAt, if_pos rfl]
        have htl : SpecAny tl fx b s2 = false := by
          apply specAny_none
          · simp only [List.map_cons, List.nodup_cons] at hnodup
            exact hnodup.1
          · exact hXXtl
        simp only [SpecAny, htl]
        simp
      · rw [childAt, if_neg (by simp [hv]), childAt, if_neg (by simp)]
        have hnd2 : (tl.map Prod.fst).Nodup := by
          simp only [List.map_cons, List.nodup_cons] at hnodup
          exact hnodup.2
        have h2 := ih hnd2 (fun hmem => absurd hmem hXXtl)
        simp only [SpecAny]
        rw [decide_eq_false (by simp [hv]), decide_eq_false (by simp)]
        simp only [Bool.false_or, Bool.false_and]
        exact h2

theorem childAt_wf : ∀ (ch : List (Token × Node)) (tok : Token) (c : Node),
    childAt ch tok = some c → wfChAll ch = true → wfNode c = true := by
  intro ch
  induction ch with
  | nil => intro tok c h _; simp [childAt] at h
  | cons hd tl ih =>
    intro tok c h hwf
    obtain ⟨t, n⟩ := hd
    simp only [wfChAll, Bool.and_eq_true] at hwf
    rw [childAt] at h
    split_ifs at h with ht
    · cases Option.some.inj h; exact hwf.1
    · exact ih tok c h hwf.2

theorem wfNode_branch_parts (ch : List (Token × Node)) (a : ATag)
    (h : wfNode (Node.branch ch a) = true) :
    (ch.map Prod.fst).Nodup ∧ (Token.XX ∈ ch.map Prod.fst → ch.length = 1) ∧
    wfChAll ch = true := by
  simp only [wfNode, Bool.and_eq_true, Bool.or_eq_true, Bool.not_eq_true',
    decide_eq_true_eq, decide_eq_false_iff_not] at h
  obtain ⟨⟨h1, h2⟩, h3⟩ := h
  refine ⟨h1, ?_, h3⟩
  intro hmem
  rcases h2 with h2 | h2
  · exact absurd hmem h2
  · exact h2

/-- The state invariant of the strip traversal: the accept kind is
normal_inst or jump_rel with no pending replacement, or replace with the
fixup chain for register 4 or 5 pending. -/
def ModeOk (a : ATag) (rep : Option Node) (fx : Option Nat) : Prop :=
  (a = ATag.normal_inst ∧ rep = Option.none ∧ fx = Option.none) ∨
  ((∃ k, a = ATag.jump_rel k) ∧ rep = Option.none ∧ fx = Option.none) ∨
  (∃ n, (n = 4 ∨ n = 5) ∧ a = ATag.replace ∧ rep = some (stackChain n) ∧
    fx = some n)

theorem branch_children_lang (f gas : Nat) (a : ATag) (rep : Option Node)
    (fx : Option Nat)
    (IH : ∀ nd o, wfNode nd = true → stripF f gas nd a rep = some o →
        ∀ s, (acceptsTag o s ≠ ATag.f) ↔ SpecAccept nd fx s = true)
    (ch ch2 : List (Token × Node))
    (hmapM : List.mapM (fun tn =>
        (stripF f gas tn.2 a rep).map (fun m => (tn.1, m))) ch = some ch2)
    (hnodup : (ch.map Prod.fst).Nodup)
    (hxx : Token.XX ∈ ch.map Prod.fst → ch.length = 1)
    (hwfc : wfChAll ch = true)
    (a2 : ATag) (b : Fin 256) (s2 : List (Fin 256)) :
    (acceptsTag (Node.branch ch2 a2) (b :: s2) ≠ ATag.f)
      ↔ SpecAny ch fx b s2 = true := by
  have hchar := fun tok => @mapM_children_childAt
    (fun nd => stripF f gas nd a rep) ch ch2 hmapM tok
  rw [acceptsTag_cons, specAny_lookup fx b s2 ch hnodup hxx]
  cases hca : childAt ch (Token.byte b.val) with
  | some c =>
    obtain ⟨c2, hF, hca2⟩ := (hchar (Token.byte b.val)).1 c hca
    rw [hca2]
    exact IH c c2 (childAt_wf ch _ c hca hwfc) hF s2
  | none =>
    rw [(hchar (Token.byte b.val)).2 hca]
    cases hxxa : childAt ch Token.XX with
    | some c =>
      obtain ⟨c2, hF, hxx2⟩ := (hchar Token.XX).1 c hxxa
      rw [hxx2]
      exact IH c c2 (childAt_wf ch _ c hxxa hwfc) hF s2
    | none =>
      rw [(hchar Token.XX).2 hxxa]
      simp

theorem stripF_lang : ∀ (fuel : Nat), ∀ (gas : Nat) (node : Node) (a : ATag)
    (rep : Option Node) (fx : Option Nat) (out : Node),
    wfNode node = true → ModeOk a rep fx →
    stripF fuel gas node a rep = some out →
    ∀ s : List (Fin 256),
      (acceptsTag out s ≠ ATag.f) ↔ SpecAccept node fx s = true := by
  intro fuel
  induction fuel with
  | zero => intro gas node a rep fx out _ _ h; simp [stripF] at h
  | succ f ih =>
    intro gas node a rep fx out hwf hmode hst
    cases node with
    | label k v next =>
      rw [stripF_label_eq] at hst
      have hwfn : wfNode next = true := by
        simp only [wfNode] at hwf; exact hwf
      by_cases hk1 : k = "relative_jump"
      · subst hk1
        rw [if_pos rfl] at hst
        have hspec : ∀ s, SpecAccept (Node.label "relative_jump" v next) fx s
            = SpecAccept next fx s := by
          intro s; simp only [SpecAccept]; rw [if_neg (by decide)]
        rcases hmode with ⟨ha, hrep, hfix⟩ | ⟨⟨k0, ha⟩, hrep, hfix⟩ |
          ⟨n, hn, ha, hrep, hfix⟩
        · subst ha
          cases v with
          | nat n =>
            simp only [Option.some_bind, Option.bind_eq_bind] at hst
            cases hres : stripF f gas next (ATag.jump_rel n) rep with
            | none => rw [hres] at hst; simp at hst
            | some new =>
              rw [hres] at hst
              simp only [Option.some_bind, Option.bind_eq_bind] at hst
              rw [if_neg (by decide)] at hst
              cases Option.some.inj hst
              intro s
              rw [hspec]
              exact ih gas next (ATag.jump_rel n) rep fx _ hwfn
                (Or.inr (Or.inl ⟨⟨n, rfl⟩, hrep, hfix⟩)) hres s
          | str s0 => simp at hst
          | bool b0 => simp at hst
          | args l0 => simp at hst
          | none => simp at hst
        · subst ha; cases v <;> simp at hst
        · subst ha; cases v <;> simp at hst
      · by_cases hk2 : k = "requires_fixup"
        · subst hk2
          rw [if_neg hk1, if_pos rfl] at hst
          rcases hmode with ⟨ha, hrep, hfix⟩ | ⟨⟨k0, ha⟩, hrep, hfix⟩ |
            ⟨n, hn, ha, hrep, hfix⟩
          · subst ha
            cases v with
            | nat n =>
              dsimp only at hst
              cases hsf : StackFixup n with
              | none => rw [hsf] at hst; simp at hst
              | some r =>
                rw [hsf] at hst
                simp only [Option.map_some', Option.some_bind,
                  Option.bind_eq_bind] at hst
                cases hres : stripF f gas next ATag.replace (some r) with
                | none => rw [hres] at hst; simp at hst
                | some new =>
                  rw [hres] at hst
                  simp only [Option.some_bind, Option.bind_eq_bind] at hst
                  rw [if_neg (by decide)] at hst
                  cases Option.some.inj hst
                  have hn45 : n = 4 ∨ n = 5 := by
                    by_contra hcon
                    rw [stackFixup_eq, if_neg hcon] at hsf
                    exact Option.noConfusion hsf
                  have hr : r = stackChain n := by
                    rw [stackFixup_eq, if_pos hn45] at hsf
                    exact (Option.some.inj hsf).symm
                  subst hr
                  intro s
                  have hsp : SpecAccept (Node.label "requires_fixup" (LVal.nat n) next)
                      fx s = SpecAccept next (some n) s := by
                    simp [SpecAccept]
                  rw [hsp]
                  exact ih gas next ATag.replace (some (stackChain n)) (some n) _ hwfn
                    (Or.inr (Or.inr ⟨n, hn45, rfl, rfl, rfl⟩)) hres s
            | str s0 => simp at hst
            | bool b0 => simp at hst
            | args l0 => simp at hst
            | none => simp at hst
          · subst ha; cases v <;> simp at hst
          · subst ha; cases v <;> simp at hst
        · rw [if_neg hk1, if_neg hk2] at hst
          simp only [Option.some_bind, Option.bind_eq_bind] at hst
          cases hres : stripF f gas next a rep with
          | none => rw [hres] at hst; simp at hst
          | some new =>
            rw [hres] at hst
            simp only [Option.some_bind, Option.bind_eq_bind] at hst
            have hsp : ∀ s, SpecAccept (Node.label k v next) fx s
                = SpecAccept next fx s := by
              intro s; simp only [SpecAccept]; rw [if_neg hk2]
            have hIH := ih gas next a rep fx new hwfn hmode hres
            cases hkeep : keep_label k with
            | true =>
              rw [hkeep] at hst
              rw [if_pos rfl] at hst
              cases Option.some.inj hst
              intro s
              rw [acceptsTag_label, hsp]
              exact hIH s
            | false =>
              rw [hkeep] at hst
              rw [if_neg (by simp)] at hst
              cases Option.some.inj hst
              intro s
              rw [hsp]
              exact hIH s
    | branch ch a0 =>
      rw [stripF_branch_eq] at hst
      obtain ⟨hnodup, hxx, hwfc⟩ := wfNode_branch_parts ch a0 hwf
      cases a0 with
      | t =>
        rcases hmode with ⟨ha, hrep, hfix⟩ | ⟨⟨k0, ha⟩, hrep, hfix⟩ |
          ⟨n, hn, ha, hrep, hfix⟩
        · subst ha; subst hrep; subst hfix
          rw [if_neg (by decide)] at hst
          cases hmm : List.mapM (fun tn =>
              (stripF f gas tn.2 ATag.normal_inst Option.none).map
                (fun m => (tn.1, m))) ch with
          | none => rw [hmm] at hst; simp at hst
          | some ch2 =>
            rw [hmm] at hst
            simp only [Option.some_bind, Option.bind_eq_bind] at hst
            cases Option.some.inj hst
            intro s
            cases s with
            | nil =>
              rw [acceptsTag_nil]
              simp [SpecAccept]
            | cons b s2 =>
              have hsp : SpecAccept (Node.branch ch ATag.t) Option.none (b :: s2)
                  = SpecAny ch Option.none b s2 := by
                simp [SpecAccept]
              rw [hsp]
              exact branch_children_lang f gas ATag.normal_inst Option.none
                Option.none
                (fun nd o hw hs => ih gas nd ATag.normal_inst Option.none
                  Option.none o hw (Or.inl ⟨rfl, rfl, rfl⟩) hs)
                ch ch2 hmm hnodup hxx hwfc ATag.normal_inst b s2
        · subst ha; subst hrep; subst hfix
          rw [if_neg (by simp)] at hst
          cases hmm : List.mapM (fun tn =>
              (stripF f gas tn.2 (ATag.jump_rel k0) Option.none).map
                (fun m => (tn.1, m))) ch with
          | none => rw [hmm] at hst; simp at hst
          | some ch2 =>
            rw [hmm] at hst
            simp only [Option.some_bind, Option.bind_eq_bind] at hst
            cases Option.some.inj hst
            intro s
            cases s with
            | nil =>
              rw [acceptsTag_nil]
              simp [SpecAccept]
            | cons b s2 =>
              have hsp : SpecAccept (Node.branch ch ATag.t) Option.none (b :: s2)
                  = SpecAny ch Option.none b s2 := by
                simp [SpecAccept]
              rw [hsp]
              exact branch_children_lang f gas (ATag.jump_rel k0) Option.none
                Option.none
                (fun nd o hw hs => ih gas nd (ATag.jump_rel k0) Option.none
                  Option.none o hw (Or.inr (Or.inl ⟨⟨k0, rfl⟩, rfl, rfl⟩)) hs)
                ch ch2 hmm hnodup hxx hwfc (ATag.jump_rel k0) b s2
        · subst ha; subst hrep; subst hfix
          rw [if_pos rfl] at hst
          cases ch with
          | nil =>
            cases gas with
            | zero => simp at hst
            | succ g =>
              have hst2 : stripF f g (stackChain n) ATag.normal_inst Option.none
                  = some out := hst
              have hout := stripF_chain_succ [0x4c, 0x01, 0xf8 ||| n] f g out hst2
              subst hout
              intro s
              rw [acceptsTag_byteChain]
              constructor
              · intro h
                by_cases hc : s.map Fin.val = [0x4c, 0x01, 0xf8 ||| n]
                · have hs := (fixBytes_val n hn s).mp hc
                  subst hs
                  simp [SpecAccept, fixBytes]
                · rw [if_neg hc] at h
                  exact absurd rfl h
              · intro h
                have hs : s = fixBytes n := by
                  cases s with
                  | nil => simp [SpecAccept, fixBytes] at h
                  | cons b s2 =>
                    simp only [SpecAccept, SpecAny, Bool.or_eq_true,
                      Bool.and_eq_true, decide_eq_true_eq] at h
                    rcases h with ⟨⟨_, _⟩, h⟩ | h
                    · exact h
                    · exact absurd h (by simp)
                rw [if_pos ((fixBytes_val n hn s).mpr hs)]
                simp
          | cons p ch2 => simp at hst
      | f =>
        cases hmm : List.mapM (fun tn =>
            (stripF f gas tn.2 a rep).map (fun m => (tn.1, m))) ch with
        | none => rw [hmm] at hst; simp at hst
        | some ch2 =>
          rw [hmm] at hst
          simp only [Option.some_bind, Option.bind_eq_bind] at hst
          cases Option.some.inj hst
          intro s
          cases s with
          | nil =>
            rw [acceptsTag_nil]
            rcases fx with _ | n <;> simp [SpecAccept]
          | cons b s2 =>
            have hsp : SpecAccept (Node.branch ch ATag.f) fx (b :: s2)
                = SpecAny ch fx b s2 := by
              rcases fx with _ | n <;> simp [SpecAccept]
            rw [hsp]
            exact branch_children_lang f gas a rep fx
              (fun nd o hw hs => ih gas nd a rep fx o hw hmode hs)
              ch ch2 hmm hnodup hxx hwfc ATag.f b s2
      | normal_inst => simp at hst
      | jump_rel n0 => simp at hst
      | superinst_start => simp at hst
      | replace => simp at hst

/-- C5: for a well-formed labeled trie, the byte strings accepted by the
stripped DFA are exactly those the spec assigns to the trie — paths of
byte tokens (XX matching any byte) to an accepting branch, with a
requires_fixup path's tail substituted by the fixup byte sequence. -/
theorem strip_preserves_language (node out : Node)
    (hwf : wfNode node = true) (hstrip : StripDft node = some out)
    (s : List (Fin 256)) :
    (acceptsTag out s ≠ ATag.f) ↔ SpecAccept node Option.none s = true := by
  simp only [StripDft, StripDftRecG] at hstrip
  exact stripF_lang (nsize node + repN Option.none + 20 * 1 + 11) 1 node
    ATag.normal_inst Option.none Option.none out hwf (Or.inl ⟨rfl, rfl, rfl⟩)
    hstrip s

/-- Witness for C5 on the trie accepting under a requires_fixup (4) label:
the stripped DFA accepts exactly the fixup bytes, as SpecAccept does. -/
theorem strip_preserves_language_witness :
    (acceptsTag (TrieOfList ([0x4c, 0x01, 0xfc].map Token.byte)
        (Node.branch [] ATag.normal_inst)) (fixBytes 4) ≠ ATag.f)
    ↔ SpecAccept (Node.label "requires_fixup" (LVal.nat 4) AcceptNode)
        Option.none (fixBytes 4) = true :=
  strip_preserves_language
    (Node.label "requires_fixup" (LVal.nat 4) AcceptNode)
    (TrieOfList ([0x4c, 0x01, 0xfc].map Token.byte)
      (Node.branch [] ATag.normal_inst))
    (by decide) (by rfl) (fixBytes 4)

-- ---------------------------------------------------------------------------
-- C7: MergeMany is associative and commutative under the default policy.
-- ---------------------------------------------------------------------------

theorem tokVal_inj (a b : Token) (h : tokVal a = tokVal b) : a = b := by
  cases a <;> cases b <;> simp [tokVal] at h ⊢ <;> omega

theorem mem_insTok (k t : Token) : ∀ (l : List Token),
    t ∈ insTok k l ↔ t = k ∨ t ∈ l := by
  intro l
  induction l with
  | nil => simp [insTok]
  | cons h r ih =>
    simp only [insTok]
    split_ifs with h1 h2
    · simp only [List.mem_cons]
    · have hkh : k = h := tokVal_inj k h h2
      subst hkh
      simp only [List.mem_cons]
      tauto
    · simp only [List.mem_cons, ih]
      tauto

theorem pairwise_insTok (k : Token) : ∀ (l : List Token),
    l.Pairwise (fun a b => tokVal a < tokVal b) →
    (insTok k l).Pairwise (fun a b => tokVal a < tokVal b) := by
  intro l
  induction l with
  | nil => intro _; simp [insTok]
  | cons h r ih =>
    intro hp
    rw [List.pairwise_cons] at hp
    simp only [insTok]
    split_ifs with h1 h2
    · rw [List.pairwise_cons]
      constructor
      · intro t ht
        rcases List.mem_cons.mp ht with rfl | ht2
        · exact h1
        · exact lt_trans h1 (hp.1 t ht2)
      · rw [List.pairwise_cons]
        exact hp
    · rw [List.pairwise_cons]
      exact hp
    · rw [List.pairwise_cons]
      refine ⟨?_, ih hp.2⟩
      intro t ht
      rcases (mem_insTok k t r).mp ht with rfl | ht2
      · omega
      · exact hp.1 t ht2

theorem sortedKeys_pairwise (l : List Token) :
    (sortedKeys l).Pairwise (fun a b => tokVal a < tokVal b) := by
  induction l with
  | nil => simp [sortedKeys]
  | cons h r ih => exact pairwise_insTok h (sortedKeys r) ih

theorem mem_sortedKeys (t : Token) : ∀ (l : List Token),
    t ∈ sortedKeys l ↔ t ∈ l := by
  intro l
  induction l with
  | nil => simp [sortedKeys]
  | cons h r ih =>
    show t ∈ insTok h (sortedKeys r) ↔ _
    rw [mem_insTok, ih]
    simp

theorem sortedKeys_nodup (l : List Token) : (sortedKeys l).Nodup := by
  have h := sortedKeys_pairwise l
  exact h.imp (fun hab => by
    intro he
    subst he
    omega)

theorem sortedKeys_ext (l1 l2 : List Token) (h : ∀ t, t ∈ l1 ↔ t ∈ l2) :
    sortedKeys l1 = sortedKeys l2 := by
  haveI : IsAntisymm Token (fun a b => tokVal a < tokVal b) :=
    ⟨fun a b h1 h2 => absurd (lt_trans h1 h2) (lt_irrefl _)⟩
  apply List.eq_of_perm_of_sorted _ (sortedKeys_pairwise l1) (sortedKeys_pairwise l2)
  rw [List.perm_ext_iff_of_nodup (sortedKeys_nodup l1) (sortedKeys_nodup l2)]
  intro a
  rw [mem_sortedKeys, mem_sortedKeys]
  exact h a

theorem sortedKeys_idem_append (l1 l2 : List Token) :
    sortedKeys (sortedKeys l1 ++ l2) = sortedKeys (l1 ++ l2) := by
  apply sortedKeys_ext
  intro t
  simp [mem_sortedKeys]

-- Fuel stability for the merge engine.

theorem mergeManyF_stable : ∀ (f g : Nat) (nodes : List Node)
    (policy : List ATag → Option ATag),
    sizeSum nodes < f → sizeSum nodes < g →
    mergeManyF f nodes policy = mergeManyF g nodes policy := by
  intro f
  induction f with
  | zero => intro g nodes policy hf; omega
  | succ f ih =>
    intro g nodes policy hf hg
    match nodes with
    | [n] => simp only [mergeManyF]
    | [] => simp only [mergeManyF]
    | Node.label k v nx :: n1 :: rest =>
      have hpos := node_nsize_pos (Node.label k v nx)
      match g, hg with
      | g + 1, hg =>
        simp only [mergeManyF]
        have hlt := nexts_lt (Node.label k v nx) (n1 :: rest)
        rw [ih g ((Node.label k v nx :: n1 :: rest).filterMap nodeNext) policy
          (by omega) (by omega)]
    | Node.branch ch a :: n1 :: rest =>
      have hpos := node_nsize_pos (Node.branch ch a)
      match g, hg with
      | g + 1, hg =>
        simp only [mergeManyF]
        have hch : ∀ (ks : List Token),
            ks.mapM (fun k =>
              (mergeManyF f (collectChildren k (Node.branch ch a :: n1 :: rest))
                policy).map (fun m => (k, m)))
            = ks.mapM (fun k =>
              (mergeManyF g (collectChildren k (Node.branch ch a :: n1 :: rest))
                policy).map (fun m => (k, m))) := by
          intro ks
          induction ks with
          | nil => rfl
          | cons k kr ihk =>
            rw [List.mapM_cons, List.mapM_cons]
            have hcl := collect_lt k (Node.branch ch a) (n1 :: rest)
            rw [ih g (collectChildren k (Node.branch ch a :: n1 :: rest)) policy
              (by omega) (by omega), ihk]
        rw [hch]

theorem mergeMany_nil (policy : List ATag → Option ATag) :
    MergeMany [] policy = some EmptyNode := rfl

theorem mergeMany_single (n : Node) (policy : List ATag → Option ATag) :
    MergeMany [n] policy = some n := by
  simp only [MergeMany, mergeManyF]

theorem mergeMany_label_eq (k : String) (v : LVal) (nx n1 : Node)
    (rest : List Node) (policy : List ATag → Option ATag) :
    MergeMany (Node.label k v nx :: n1 :: rest) policy =
      if labelsMatch k v (Node.label k v nx :: n1 :: rest) then
        (MergeMany ((Node.label k v nx :: n1 :: rest).filterMap nodeNext)
          policy).map (fun m => Node.label k v m)
      else Option.none := by
  show mergeManyF (sizeSum (Node.label k v nx :: n1 :: rest) + 1) _ _ = _
  simp only [mergeManyF]
  have hlt := nexts_lt (Node.label k v nx) (n1 :: rest)
  rw [mergeManyF_stable (sizeSum (Node.label k v nx :: n1 :: rest))
    (sizeSum ((Node.label k v nx :: n1 :: rest).filterMap nodeNext) + 1)
    _ policy (by omega) (by omega)]
  rfl

theorem mergeMany_branch_eq (ch : List (Token × Node)) (a : ATag) (n1 : Node)
    (rest : List Node) (policy : List ATag → Option ATag) :
    MergeMany (Node.branch ch a :: n1 :: rest) policy =
      ((Node.branch ch a :: n1 :: rest).mapM nodeAccept).bind (fun accepts =>
        ((sortedKeys ((Node.branch ch a :: n1 :: rest).flatMap nodeKeys)).mapM
          (fun k =>
            (MergeMany (collectChildren k (Node.branch ch a :: n1 :: rest))
              policy).map (fun m => (k, m)))).bind (fun children =>
          (match accepts.dedup with
           | [x] => some x
           | l => policy l).bind (fun accept =>
            some (Node.branch children accept)))) := by
  show mergeManyF (sizeSum (Node.branch ch a :: n1 :: rest) + 1) _ _ = _
  simp only [mergeManyF]
  have hch : ∀ (ks : List Token),
      ks.mapM (fun k =>
        (mergeManyF (sizeSum (Node.branch ch a :: n1 :: rest))
          (collectChildren k (Node.branch ch a :: n1 :: rest))
          policy).map (fun m => (k, m)))
      = ks.mapM (fun k =>
        (MergeMany (collectChildren k (Node.branch ch a :: n1 :: rest))
          policy).map (fun m => (k, m))) := by
    intro ks
    induction ks with
    | nil => rfl
    | cons k kr ihk =>
      rw [List.mapM_cons, List.mapM_cons]
      have hcl := collect_lt k (Node.branch ch a) (n1 :: rest)
      rw [mergeManyF_stable (sizeSum (Node.branch ch a :: n1 :: rest))
        (sizeSum (collectChildren k (Node.branch ch a :: n1 :: rest)) + 1)
        _ policy (by omega) (by omega), ihk]
      rfl
  rw [hch]
  rfl

-- Accept extraction and mapM facts.

def getAcc : Node → ATag
  | Node.branch _ a => a
  | Node.label _ _ _ => ATag.f

theorem mapM_congr (F G : Node → Option ATag) : ∀ (l : List Node),
    (∀ x ∈ l, F x = G x) → l.mapM F = l.mapM G := by
  intro l
  induction l with
  | nil => intro _; rfl
  | cons h t ih =>
    intro hx
    rw [List.mapM_cons, List.mapM_cons, hx h (by simp),
      ih (fun x hm => hx x (by simp [hm]))]

theorem mapM_eq_none_of_mem (F : Node → Option ATag) :
    ∀ (l : List Node) (x : Node), x ∈ l → F x = Option.none →
    l.mapM F = Option.none := by
  intro l
  induction l with
  | nil => intro x hx; simp at hx
  | cons h t ih =>
    intro x hx hFx
    rw [List.mapM_cons]
    rcases List.mem_cons.mp hx with rfl | hx2
    · rw [hFx]; rfl
    · rw [ih x hx2 hFx]
      cases F h <;> rfl

theorem mapM_nodeAccept_eq : ∀ (l : List Node),
    (∀ x ∈ l, nodeAccept x ≠ Option.none) →
    l.mapM nodeAccept = some (l.map getAcc) := by
  intro l
  induction l with
  | nil => intro _; rfl
  | cons h t ih =>
    intro hx
    rw [List.mapM_cons]
    have hh : nodeAccept h = some (getAcc h) := by
      cases h with
      | branch ch a => rfl
      | label k v nx => exact absurd rfl (hx (Node.label k v nx) (by simp))
    rw [hh, ih (fun x hm => hx x (by simp [hm]))]
    rfl

theorem dedup_eq_single_iff (L : List ATag) (x : ATag) :
    L.dedup = [x] ↔ (L ≠ [] ∧ ∀ y ∈ L, y = x) := by
  constructor
  · intro h
    constructor
    · intro hnil
      subst hnil
      simp at h
    · intro y hy
      have : y ∈ L.dedup := List.mem_dedup.mpr hy
      rw [h] at this
      simpa using this
  · intro ⟨hne, hall⟩
    induction L with
    | nil => exact absurd rfl hne
    | cons a t ih =>
      have ha : a = x := hall a (by simp)
      subst ha
      cases t with
      | nil => simp
      | cons b t2 =>
        have hb : b = a := (hall b (by simp)).trans (hall a (by simp)).symm
        subst hb
        rw [List.dedup_cons_of_mem (by simp [hall b (by simp)])]
        · exact ih (by simp) (fun y hy => hall y (by simp [hy]))

theorem dedupMatch_none (L : List ATag) (h : ∀ x, L.dedup ≠ [x]) :
    (match L.dedup with
     | [x] => some x
     | l => NoMerge l) = Option.none := by
  cases hL : L.dedup with
  | nil => rfl
  | cons x t =>
    cases t with
    | nil => exact absurd hL (h x)
    | cons y t2 => rfl

theorem labelsMatch_true_iff (k : String) (v : LVal) (l : List Node) :
    labelsMatch k v l = true ↔ ∀ n ∈ l, ∃ nx, n = Node.label k v nx := by
  simp only [labelsMatch, List.all_eq_true]
  constructor
  · intro h n hn
    have := h n hn
    cases n with
    | branch ch a => simp at this
    | label k2 v2 nx =>
      simp only [decide_eq_true_eq] at this
      exact ⟨nx, by rw [this.1, this.2]⟩
  · intro h n hn
    obtain ⟨nx, rfl⟩ := h n hn
    simp

theorem childAt_isSome_iff (k : Token) : ∀ (ch : List (Token × Node)),
    (childAt ch k).isSome ↔ k ∈ ch.map Prod.fst := by
  intro ch
  induction ch with
  | nil => simp [childAt]
  | cons hd tl ih =>
    obtain ⟨t, n⟩ := hd
    rw [childAt]
    by_cases ht : t = k
    · subst ht
      simp
    · rw [if_neg ht]
      simp only [List.map_cons, List.mem_cons, ih]
      constructor
      · intro h; right; exact h
      · intro h
        rcases h with h | h
        · exact absurd h.symm ht
        · exact h

theorem collect_eq_nil_of_not_mem (k : Token) (l : List Node)
    (h : k ∉ l.flatMap nodeKeys) : collectChildren k l = [] := by
  rw [collectChildren, List.filterMap_eq_nil_iff]
  intro n hn
  cases hkn : n with
  | label k2 v2 nx => rfl
  | branch ch a =>
    cases hc : childAt ch k with
    | none => dsimp only; exact hc
    | some c =>
      exfalso
      apply h
      rw [List.mem_flatMap]
      refine ⟨n, hn, ?_⟩
      rw [hkn]
      rw [show nodeKeys (Node.branch ch a) = ch.map Prod.fst from rfl]
      rw [← childAt_isSome_iff]
      rw [hc]
      rfl

-- MergeMany is invariant under permutation of its input list.

theorem mergeMany_perm_aux : ∀ (N : Nat), ∀ (l1 l2 : List Node),
    sizeSum l1 ≤ N → l1.Perm l2 →
    MergeMany l1 NoMerge = MergeMany l2 NoMerge := by
  intro N
  induction N using Nat.strong_induction_on with
  | _ N IHN =>
  intro l1 l2 hsz hperm
  rcases l1 with _ | ⟨n0, _ | ⟨n1, rest⟩⟩
  · rw [hperm.symm.eq_nil]
  · rw [List.perm_singleton.mp hperm.symm]
  · rcases l2 with _ | ⟨m0, _ | ⟨m1, rest2⟩⟩
    · have := hperm.length_eq
      simp at this
    · have := hperm.length_eq
      simp at this
    · cases n0 with
      | label k v nx =>
        cases m0 with
        | label k2 v2 nx2 =>
          by_cases hm : labelsMatch k v (Node.label k v nx :: n1 :: rest) = true
          · have hall := (labelsMatch_true_iff k v _).mp hm
            obtain ⟨nx2e, heq⟩ := hall (Node.label k2 v2 nx2)
              (hperm.mem_iff.mpr (by simp))
            injection heq.symm with hk hv hnx
            subst hk
            subst hv
            have hm2 : labelsMatch k v (Node.label k v nx2 :: m1 :: rest2) = true := by
              rw [labelsMatch_true_iff]
              intro n hn
              exact hall n (hperm.mem_iff.mpr hn)
            rw [mergeMany_label_eq, mergeMany_label_eq, if_pos hm, if_pos hm2]
            have hpermN := hperm.filterMap nodeNext
            have hlt := nexts_lt (Node.label k v nx) (n1 :: rest)
            rw [IHN (sizeSum ((Node.label k v nx :: n1 :: rest).filterMap nodeNext))
              (by omega) _ _ (le_refl _) hpermN]
          · have hm2 : ¬ labelsMatch k2 v2 (Node.label k2 v2 nx2 :: m1 :: rest2)
                = true := by
              intro hcon
              apply hm
              have hall2 := (labelsMatch_true_iff k2 v2 _).mp hcon
              obtain ⟨nxe, heq⟩ := hall2 (Node.label k v nx)
                (hperm.mem_iff.mp (by simp))
              injection heq with hk hv hnx
              subst hk
              subst hv
              rw [labelsMatch_true_iff]
              intro n hn
              exact hall2 n (hperm.mem_iff.mp hn)
            rw [mergeMany_label_eq, mergeMany_label_eq, if_neg hm, if_neg hm2]
        | branch ch2 a2 =>
          have hm : ¬ labelsMatch k v (Node.label k v nx :: n1 :: rest) = true := by
            intro hcon
            obtain ⟨nxe, heq⟩ := (labelsMatch_true_iff k v _).mp hcon
              (Node.branch ch2 a2) (hperm.mem_iff.mpr (by simp))
            simp at heq
          have hacc : nodeAccept (Node.label k v nx) = Option.none := rfl
          rw [mergeMany_label_eq, mergeMany_branch_eq, if_neg hm,
            mapM_eq_none_of_mem nodeAccept _ (Node.label k v nx)
              (hperm.mem_iff.mp (by simp)) hacc]
          rfl
      | branch ch a =>
        cases m0 with
        | label k2 v2 nx2 =>
          have hm2 : ¬ labelsMatch k2 v2 (Node.label k2 v2 nx2 :: m1 :: rest2)
              = true := by
            intro hcon
            obtain ⟨nxe, heq⟩ := (labelsMatch_true_iff k2 v2 _).mp hcon
              (Node.branch ch a) (hperm.mem_iff.mp (by simp))
            simp at heq
          have hacc : nodeAccept (Node.label k2 v2 nx2) = Option.none := rfl
          rw [mergeMany_branch_eq, mergeMany_label_eq, if_neg hm2,
            mapM_eq_none_of_mem nodeAccept _ (Node.label k2 v2 nx2)
              (hperm.mem_iff.mpr (by simp)) hacc]
          rfl
        | branch ch2 a2 =>
          by_cases hlab : ∃ x ∈ Node.branch ch a :: n1 :: rest,
              nodeAccept x = Option.none
          · obtain ⟨x, hx, hxa⟩ := hlab
            rw [mergeMany_branch_eq, mergeMany_branch_eq,
              mapM_eq_none_of_mem nodeAccept _ x hx hxa,
              mapM_eq_none_of_mem nodeAccept _ x (hperm.mem_iff.mp hx) hxa]
            rfl
          · push_neg at hlab
            have hacc1 := mapM_nodeAccept_eq _ hlab
            have hacc2 := mapM_nodeAccept_eq (Node.branch ch2 a2 :: m1 :: rest2)
              (fun x hx => hlab x (hperm.mem_iff.mpr hx))
            rw [mergeMany_branch_eq, mergeMany_branch_eq, hacc1, hacc2]
            simp only [Option.some_bind]
            have hkeys : sortedKeys ((Node.branch ch a :: n1 :: rest).flatMap
                  nodeKeys)
                = sortedKeys ((Node.branch ch2 a2 :: m1 :: rest2).flatMap
                  nodeKeys) := by
              apply sortedKeys_ext
              intro t
              exact ((hperm.map nodeKeys).flatten).mem_iff
            rw [hkeys]
            have hchild : ∀ (ks : List Token),
                ks.mapM (fun k =>
                  (MergeMany (collectChildren k (Node.branch ch a :: n1 :: rest))
                    NoMerge).map (fun m => (k, m)))
                = ks.mapM (fun k =>
                  (MergeMany (collectChildren k
                    (Node.branch ch2 a2 :: m1 :: rest2))
                    NoMerge).map (fun m => (k, m))) := by
              intro ks
              induction ks with
              | nil => rfl
              | cons k kr ihk =>
                rw [List.mapM_cons, List.mapM_cons, ihk]
                have hpc := hperm.filterMap (fun n => match n with
                  | Node.branch ch _ => childAt ch k
                  | Node.label _ _ _ => Option.none)
                have hcl := collect_lt k (Node.branch ch a) (n1 :: rest)
                rw [show MergeMany (collectChildren k
                      (Node.branch ch a :: n1 :: rest)) NoMerge
                    = MergeMany (collectChildren k
                      (Node.branch ch2 a2 :: m1 :: rest2)) NoMerge from
                  IHN (sizeSum (collectChildren k
                      (Node.branch ch a :: n1 :: rest)))
                    (by omega) _ _ (le_refl _) hpc]
            rw [hchild]
            have haccmatch : (match ((Node.branch ch a :: n1 :: rest).map
                  getAcc).dedup with
                 | [x] => some x
                 | l => NoMerge l)
                = (match ((Node.branch ch2 a2 :: m1 :: rest2).map
                  getAcc).dedup with
                 | [x] => some x
                 | l => NoMerge l) := by
              by_cases hone : ∃ x, ∀ y ∈ (Node.branch ch a :: n1 :: rest).map
                  getAcc, y = x
              · obtain ⟨x, hx⟩ := hone
                have hd1 : ((Node.branch ch a :: n1 :: rest).map getAcc).dedup
                    = [x] := by
                  rw [dedup_eq_single_iff]
                  exact ⟨by simp, hx⟩
                have hd2 : ((Node.branch ch2 a2 :: m1 :: rest2).map getAcc).dedup
                    = [x] := by
                  rw [dedup_eq_single_iff]
                  refine ⟨by simp, fun y hy => hx y ?_⟩
                  exact (hperm.map getAcc).mem_iff.mpr hy
                rw [hd1, hd2]
              · have h1 := fun x => (fun hcon =>
                  hone ⟨x, ((dedup_eq_single_iff _ x).mp hcon).2⟩)
                have h2 : ∀ x, ((Node.branch ch2 a2 :: m1 :: rest2).map
                    getAcc).dedup ≠ [x] := by
                  intro x hcon
                  apply hone
                  refine ⟨x, fun y hy => ?_⟩
                  have hy2 := (hperm.map getAcc).mem_iff.mp hy
                  exact ((dedup_eq_single_iff _ x).mp hcon).2 y hy2
                rw [dedupMatch_none _ h1, dedupMatch_none _ h2]
            rw [haccmatch]

-- Grafting a merged sublist at the head of a merge.

theorem sizeSum_append (l1 l2 : List Node) :
    sizeSum (l1 ++ l2) = sizeSum l1 + sizeSum l2 := by
  simp [sizeSum]

theorem collect_le (k : Token) (l : List Node) :
    sizeSum (collectChildren k l) ≤ sizeSum l := by
  apply shrink_filterMap_le
  intro m c h
  cases m with
  | branch ch a =>
    have := childAt_nsize h
    simp [nsize]
    omega
  | label k2 v2 nx => simp at h

theorem nexts_le (l : List Node) :
    sizeSum (l.filterMap nodeNext) ≤ sizeSum l := by
  apply shrink_filterMap_le
  intro m c h
  cases m with
  | branch ch a => simp [nodeNext] at h
  | label k2 v2 nx =>
    cases Option.some.inj h
    simp [nsize, nodeNext]

theorem mapMPair_congr (F G : Token → Option Node) : ∀ (l : List Token),
    (∀ x ∈ l, F x = G x) →
    l.mapM (fun k => (F k).map (fun m => (k, m)))
      = l.mapM (fun k => (G k).map (fun m => (k, m))) := by
  intro l
  induction l with
  | nil => intro _; rfl
  | cons h t ih =>
    intro hx
    rw [List.mapM_cons, List.mapM_cons, hx h (by simp),
      ih (fun x hm => hx x (by simp [hm]))]

theorem mapM_keys (F : Token → Option Node) : ∀ (K : List Token)
    (chl : List (Token × Node)),
    K.mapM (fun k => (F k).map (fun m => (k, m))) = some chl →
    chl.map Prod.fst = K := by
  intro K
  induction K with
  | nil =>
    intro chl h
    simp only [List.mapM_nil, Option.pure_def, Option.some.injEq] at h
    subst h
    rfl
  | cons k kr ih =>
    intro chl h
    rw [List.mapM_cons] at h
    cases hF : F k with
    | none => rw [hF] at h; simp at h
    | some m =>
      rw [hF] at h
      cases hrest : kr.mapM (fun k => (F k).map (fun m => (k, m))) with
      | none => rw [hrest] at h; simp at h
      | some chl2 =>
        rw [hrest] at h
        simp only [Option.map_some', Option.some_bind, Option.bind_eq_bind,
          Option.pure_def, Option.some.injEq] at h
        subst h
        simp [ih chl2 hrest]

theorem mapM_childAt_mem (F : Token → Option Node) : ∀ (K : List Token)
    (chl : List (Token × Node)) (k : Token),
    K.mapM (fun k => (F k).map (fun m => (k, m))) = some chl →
    k ∈ K →
    ∃ m, F k = some m ∧ childAt chl k = some m := by
  intro K
  induction K with
  | nil => intro chl k _ hk; simp at hk
  | cons k0 kr ih =>
    intro chl k h hk
    rw [List.mapM_cons] at h
    cases hF : F k0 with
    | none => rw [hF] at h; simp at h
    | some m0 =>
      rw [hF] at h
      cases hrest : kr.mapM (fun k => (F k).map (fun m => (k, m))) with
      | none => rw [hrest] at h; simp at h
      | some chl2 =>
        rw [hrest] at h
        simp only [Option.map_some', Option.some_bind, Option.bind_eq_bind,
          Option.pure_def, Option.some.injEq] at h
        subst h
        rcases List.mem_cons.mp hk with rfl | hk2
        · exact ⟨m0, hF, by rw [childAt, if_pos rfl]⟩
        · by_cases hkk : k0 = k
          · subst hkk
            exact ⟨m0, hF, by rw [childAt, if_pos rfl]⟩
          · obtain ⟨m, hFm, hc⟩ := ih chl2 k hrest hk2
            exact ⟨m, hFm, by rw [childAt, if_neg hkk]; exact hc⟩

theorem mapM_childAt_notmem (F : Token → Option Node) (K : List Token)
    (chl : List (Token × Node)) (k : Token)
    (h : K.mapM (fun k => (F k).map (fun m => (k, m))) = some chl)
    (hk : k ∉ K) : childAt chl k = Option.none := by
  have hkeys := mapM_keys F K chl h
  cases hc : childAt chl k with
  | none => rfl
  | some c =>
    exfalso
    apply hk
    rw [← hkeys, ← childAt_isSome_iff, hc]
    rfl

theorem dedup_append_all (a : ATag) (W : List ATag) : ∀ (A : List ATag),
    A ≠ [] → (∀ y ∈ A, y = a) →
    (A ++ W).dedup = (a :: W).dedup := by
  intro A
  induction A with
  | nil => intro h; exact absurd rfl h
  | cons x t ih =>
    intro _ hall
    have hx : x = a := hall x (by simp)
    subst hx
    cases t with
    | nil => rfl
    | cons b t2 =>
      have hb : b = x := hall b (by simp)
      subst hb
      rw [List.cons_append, List.dedup_cons_of_mem (by simp)]
      exact ih (by simp) (fun y hy => hall y (by simp [hy]))

theorem mergeMany_graft_aux : ∀ (N : Nat), ∀ (ys ws : List Node) (u : Node),
    sizeSum (ys ++ ws) ≤ N → ys ≠ [] →
    MergeMany ys NoMerge = some u →
    MergeMany (u :: ws) NoMerge = MergeMany (ys ++ ws) NoMerge := by
  intro N
  induction N using Nat.strong_induction_on with
  | _ N IHN =>
  intro ys ws u hsz hne hu
  rcases ys with _ | ⟨y0, _ | ⟨y1, yrest⟩⟩
  · exact absurd rfl hne
  · rw [mergeMany_single] at hu
    cases Option.some.inj hu
    rfl
  · rcases ws with _ | ⟨w, ws2⟩
    · rw [List.append_nil, mergeMany_single, hu]
    · rw [show ((y0 :: y1 :: yrest) ++ w :: ws2)
        = y0 :: y1 :: (yrest ++ w :: ws2) from rfl]
      rw [show sizeSum ((y0 :: y1 :: yrest) ++ w :: ws2)
        = sizeSum (y0 :: y1 :: yrest) + sizeSum (w :: ws2) from
        sizeSum_append _ _] at hsz
      cases y0 with
      | label k v nx =>
        rw [mergeMany_label_eq] at hu
        split_ifs at hu with hlm
        · cases hnu : MergeMany ((Node.label k v nx :: y1 :: yrest).filterMap
              nodeNext) NoMerge with
          | none => rw [hnu] at hu; exact absurd hu (by simp)
          | some u2 =>
            rw [hnu] at hu
            simp only [Option.map_some', Option.some.injEq] at hu
            subst hu
            rw [mergeMany_label_eq, mergeMany_label_eq]
            by_cases hws : labelsMatch k v
                (Node.label k v u2 :: w :: ws2) = true
            · have hws2 : labelsMatch k v
                  (Node.label k v nx :: y1 :: (yrest ++ w :: ws2)) = true := by
                rw [labelsMatch_true_iff] at hws hlm ⊢
                intro n hn
                have hn2 : n ∈ (Node.label k v nx :: y1 :: yrest) ++ w :: ws2 := by
                  simpa using hn
                rcases List.mem_append.mp hn2 with h | h
                · exact hlm n h
                · exact hws n (by simp [h])
              rw [if_pos hws, if_pos hws2]
              have hn1 : (Node.label k v u2 :: w :: ws2).filterMap nodeNext
                  = u2 :: (w :: ws2).filterMap nodeNext := rfl
              have hn2 : (Node.label k v nx :: y1 :: (yrest ++ w :: ws2)).filterMap
                    nodeNext
                  = (Node.label k v nx :: y1 :: yrest).filterMap nodeNext
                    ++ (w :: ws2).filterMap nodeNext := by
                rw [show (Node.label k v nx :: y1 :: (yrest ++ w :: ws2))
                  = (Node.label k v nx :: y1 :: yrest) ++ (w :: ws2) from rfl]
                rw [List.filterMap_append]
              rw [hn1, hn2]
              have hlt := nexts_lt (Node.label k v nx) (y1 :: yrest)
              have hle := nexts_le (w :: ws2)
              have hker : (Node.label k v nx :: y1 :: yrest).filterMap nodeNext
                  ≠ [] := by
                rw [show (Node.label k v nx :: y1 :: yrest).filterMap nodeNext
                    = nx :: (y1 :: yrest).filterMap nodeNext from rfl]
                simp
              rw [IHN (sizeSum ((Node.label k v nx :: y1 :: yrest).filterMap
                    nodeNext ++ (w :: ws2).filterMap nodeNext))
                (by rw [sizeSum_append]; omega)
                _ _ _ (le_refl _) hker hnu]
            · have hws2 : ¬ labelsMatch k v
                  (Node.label k v nx :: y1 :: (yrest ++ w :: ws2)) = true := by
                intro hcon
                apply hws
                rw [labelsMatch_true_iff] at hcon ⊢
                intro n hn
                rcases List.mem_cons.mp hn with rfl | hn2
                · exact ⟨u2, rfl⟩
                · refine hcon n ?_
                  have : n ∈ (Node.label k v nx :: y1 :: yrest) ++ w :: ws2 :=
                    List.mem_append.mpr (Or.inr hn2)
                  simpa using this
              rw [if_neg hws, if_neg hws2]
      | branch ch a =>
        rw [mergeMany_branch_eq] at hu
        cases hacc : (Node.branch ch a :: y1 :: yrest).mapM nodeAccept with
        | none => rw [hacc] at hu; exact absurd hu (by simp)
        | some accs =>
          rw [hacc] at hu
          simp only [Option.some_bind] at hu
          cases hch : (sortedKeys ((Node.branch ch a :: y1 :: yrest).flatMap
              nodeKeys)).mapM (fun k =>
                (MergeMany (collectChildren k (Node.branch ch a :: y1 :: yrest))
                  NoMerge).map (fun m => (k, m))) with
          | none => rw [hch] at hu; exact absurd hu (by simp)
          | some children =>
            rw [hch] at hu
            simp only [Option.some_bind] at hu
            cases hdm : (match accs.dedup with
                | [x] => some x
                | l => NoMerge l) with
            | none => rw [hdm] at hu; exact absurd hu (by simp)
            | some acc =>
              rw [hdm] at hu
              simp only [Option.some_bind, Option.some.injEq] at hu
              subst hu
              have hallb : ∀ x ∈ (Node.branch ch a :: y1 :: yrest),
                  nodeAccept x ≠ Option.none := by
                intro x hx hxn
                rw [mapM_eq_none_of_mem nodeAccept _ x hx hxn] at hacc
                exact Option.noConfusion hacc
              have haccs : accs = (Node.branch ch a :: y1 :: yrest).map getAcc := by
                have h2 := mapM_nodeAccept_eq _ hallb
                exact Option.some.inj (hacc.symm.trans h2)
              subst haccs
              have hdd1 : ((Node.branch ch a :: y1 :: yrest).map getAcc).dedup
                  = [acc] := by
                rcases hdd : ((Node.branch ch a :: y1 :: yrest).map
                    getAcc).dedup with _ | ⟨x, _ | ⟨y2, t2⟩⟩
                · rw [hdd] at hdm; exact absurd hdm (by simp [NoMerge])
                · rw [hdd] at hdm
                  simp only [Option.some.injEq] at hdm
                  rw [hdm]
                · rw [hdd] at hdm; exact absurd hdm (by simp [NoMerge])
              have hacconly := ((dedup_eq_single_iff _ acc).mp hdd1).2
              have hkeysu : children.map Prod.fst
                  = sortedKeys ((Node.branch ch a :: y1 :: yrest).flatMap
                    nodeKeys) := mapM_keys _ _ _ hch
              rw [mergeMany_branch_eq, mergeMany_branch_eq]
              by_cases hwacc : ∃ x ∈ w :: ws2, nodeAccept x = Option.none
              · obtain ⟨x, hx, hxa⟩ := hwacc
                rw [mapM_eq_none_of_mem nodeAccept _ x (by simp [hx]) hxa,
                  mapM_eq_none_of_mem nodeAccept _ x (by
                    rcases List.mem_cons.mp hx with rfl | hx2
                    · simp
                    · simp [hx2]) hxa]
                rfl
              · push_neg at hwacc
                have hallb1 : ∀ x ∈ (Node.branch children acc :: w :: ws2),
                    nodeAccept x ≠ Option.none := by
                  intro x hx hxn
                  rcases List.mem_cons.mp hx with rfl | hx2
                  · exact Option.noConfusion hxn
                  · exact hwacc x hx2 hxn
                have hallb2 : ∀ x ∈ (Node.branch ch a :: y1 ::
                    (yrest ++ w :: ws2)), nodeAccept x ≠ Option.none := by
                  intro x hx hxn
                  have hx2 : x ∈ (Node.branch ch a :: y1 :: yrest) ++ w :: ws2 := by
                    simpa using hx
                  rcases List.mem_append.mp hx2 with h | h
                  · exact hallb x h hxn
                  · exact hwacc x h hxn
                rw [mapM_nodeAccept_eq _ hallb1, mapM_nodeAccept_eq _ hallb2]
                simp only [Option.some_bind]
                have hkeq : sortedKeys ((Node.branch children acc :: w ::
                      ws2).flatMap nodeKeys)
                    = sortedKeys ((Node.branch ch a :: y1 ::
                      (yrest ++ w :: ws2)).flatMap nodeKeys) := by
                  apply sortedKeys_ext
                  intro t
                  rw [show (Node.branch children acc :: w :: ws2).flatMap nodeKeys
                      = children.map Prod.fst ++ (w :: ws2).flatMap nodeKeys
                      from rfl]
                  rw [hkeysu]
                  rw [show (Node.branch ch a :: y1 ::
                        (yrest ++ w :: ws2)).flatMap nodeKeys
                      = ((Node.branch ch a :: y1 :: yrest) ++
                        (w :: ws2)).flatMap nodeKeys from rfl]
                  rw [List.flatMap_append]
                  simp only [List.mem_append, mem_sortedKeys]
                rw [hkeq]
                have hpoint : ∀ k ∈ sortedKeys ((Node.branch ch a :: y1 ::
                    (yrest ++ w :: ws2)).flatMap nodeKeys),
                    MergeMany (collectChildren k
                      (Node.branch children acc :: w :: ws2)) NoMerge
                    = MergeMany (collectChildren k
                      (Node.branch ch a :: y1 :: (yrest ++ w :: ws2)))
                      NoMerge := by
                  intro k hk
                  by_cases hky : k ∈ sortedKeys ((Node.branch ch a :: y1 ::
                      yrest).flatMap nodeKeys)
                  · obtain ⟨m, hFm, hcm⟩ := mapM_childAt_mem _ _ _ k hch hky
                    have hcoll1 : collectChildren k
                        (Node.branch children acc :: w :: ws2)
                        = m :: collectChildren k (w :: ws2) := by
                      rw [collectChildren,
                        List.filterMap_cons_some (by exact hcm)]
                      rfl
                    have hcoll2 : collectChildren k
                        (Node.branch ch a :: y1 :: (yrest ++ w :: ws2))
                        = collectChildren k (Node.branch ch a :: y1 :: yrest)
                          ++ collectChildren k (w :: ws2) := by
                      rw [collectChildren]
                      rw [show (Node.branch ch a :: y1 :: (yrest ++ w :: ws2))
                        = (Node.branch ch a :: y1 :: yrest) ++ (w :: ws2)
                        from rfl]
                      rw [List.filterMap_append]
                      rfl
                    rw [hcoll1, hcoll2]
                    have hcne : collectChildren k
                        (Node.branch ch a :: y1 :: yrest) ≠ [] := by
                      rw [mem_sortedKeys, List.mem_flatMap] at hky
                      obtain ⟨n, hn, hkn⟩ := hky
                      cases n with
                      | label k2 v2 nx2 => simp [nodeKeys] at hkn
                      | branch chn an =>
                        have hs : (childAt chn k).isSome :=
                          (childAt_isSome_iff k chn).mpr
                            (by simpa [nodeKeys] using hkn)
                        cases hcn : childAt chn k with
                        | none => rw [hcn] at hs; simp at hs
                        | some c =>
                          apply List.ne_nil_of_mem (a := c)
                          rw [collectChildren, List.mem_filterMap]
                          exact ⟨Node.branch chn an, hn, by exact hcn⟩
                    have hc1 := collect_lt k (Node.branch ch a) (y1 :: yrest)
                    have hc2 := collect_le k (w :: ws2)
                    exact IHN (sizeSum (collectChildren k
                        (Node.branch ch a :: y1 :: yrest)
                        ++ collectChildren k (w :: ws2)))
                      (by rw [sizeSum_append]; omega)
                      _ _ _ (le_refl _) hcne hFm
                  · have hnone := mapM_childAt_notmem _ _ _ k hch hky
                    have hcoll1 : collectChildren k
                        (Node.branch children acc :: w :: ws2)
                        = collectChildren k (w :: ws2) := by
                      rw [collectChildren,
                        List.filterMap_cons_none (by exact hnone)]
                      rfl
                    have hceq : collectChildren k
                        (Node.branch ch a :: y1 :: yrest) = [] := by
                      apply collect_eq_nil_of_not_mem
                      rw [← mem_sortedKeys]
                      exact hky
                    have hcoll2 : collectChildren k
                        (Node.branch ch a :: y1 :: (yrest ++ w :: ws2))
                        = collectChildren k (w :: ws2) := by
                      rw [collectChildren]
                      rw [show (Node.branch ch a :: y1 :: (yrest ++ w :: ws2))
                        = (Node.branch ch a :: y1 :: yrest) ++ (w :: ws2)
                        from rfl]
                      rw [List.filterMap_append]
                      have h3 : (Node.branch ch a :: y1 :: yrest).filterMap
                          (fun n => match n with
                            | Node.branch ch _ => childAt ch k
                            | Node.label _ _ _ => Option.none) = [] := hceq
                      rw [h3]
                      rfl
                    rw [hcoll1, hcoll2]
                rw [mapMPair_congr
                  (fun k => MergeMany (collectChildren k
                    (Node.branch children acc :: w :: ws2)) NoMerge)
                  (fun k => MergeMany (collectChildren k
                    (Node.branch ch a :: y1 :: (yrest ++ w :: ws2))) NoMerge)
                  _ hpoint]
                have hdd2 : ((Node.branch ch a :: y1 ::
                      (yrest ++ w :: ws2)).map getAcc).dedup
                    = ((Node.branch children acc :: w :: ws2).map
                      getAcc).dedup := by
                  rw [show (Node.branch children acc :: w :: ws2).map getAcc
                      = acc :: (w :: ws2).map getAcc from rfl]
                  rw [show (Node.branch ch a :: y1 :: (yrest ++ w :: ws2)).map
                        getAcc
                      = (Node.branch ch a :: y1 :: yrest).map getAcc
                        ++ (w :: ws2).map getAcc from by
                    rw [show (Node.branch ch a :: y1 :: (yrest ++ w :: ws2))
                      = (Node.branch ch a :: y1 :: yrest) ++ (w :: ws2)
                      from rfl]
                    rw [List.map_append]]
                  exact dedup_append_all acc _ _ (by simp) hacconly
                rw [hdd2]

/-- C7: under the default merge policy, MergeMany is commutative —
invariant under any permutation of the node list — and associative:
replacing a sublist by its successful merge does not change the result,
so merge(merge(a,b),c), merge(a,merge(b,c)) and merge(a,b,c) all agree
and enumeration order does not affect the resulting trie. -/
theorem mergeMany_assoc_comm :
    (∀ (l1 l2 : List Node), l1.Perm l2 →
       MergeMany l1 NoMerge = MergeMany l2 NoMerge) ∧
    (∀ (a b c u : Node), MergeMany [a, b] NoMerge = some u →
       MergeMany [u, c] NoMerge = MergeMany [a, b, c] NoMerge) ∧
    (∀ (a b c u : Node), MergeMany [b, c] NoMerge = some u →
       MergeMany [a, u] NoMerge = MergeMany [a, b, c] NoMerge) := by
  refine ⟨fun l1 l2 h => mergeMany_perm_aux (sizeSum l1) l1 l2 (le_refl _) h,
    ?_, ?_⟩
  · intro a b c u hu
    exact mergeMany_graft_aux (sizeSum ([a, b] ++ [c])) [a, b] [c] u (le_refl _)
      (by simp) hu
  · intro a b c u hu
    have h1 : MergeMany [a, u] NoMerge = MergeMany [u, a] NoMerge :=
      mergeMany_perm_aux (sizeSum [a, u]) _ _ (le_refl _) (List.Perm.swap u a [])
    have h2 := mergeMany_graft_aux (sizeSum ([b, c] ++ [a])) [b, c] [a] u
      (le_refl _) (by simp) hu
    have h3 : MergeMany [b, c, a] NoMerge = MergeMany [a, b, c] NoMerge :=
      mergeMany_perm_aux (sizeSum [b, c, a]) _ _ (le_refl _)
        (@List.perm_append_comm _ [b, c] [a])
    exact h1.trans (h2.trans h3)

/-- Witness for C7: merging the single-byte tries for 00 and 01 first and
then grafting the trie for 02 equals merging all three at once. -/
theorem mergeMany_assoc_comm_witness :
    MergeMany [Node.branch [(Token.byte 0, AcceptNode),
        (Token.byte 1, AcceptNode)] ATag.f,
      TrieOfList [Token.byte 2] AcceptNode] NoMerge =
    MergeMany [TrieOfList [Token.byte 0] AcceptNode,
      TrieOfList [Token.byte 1] AcceptNode,
      TrieOfList [Token.byte 2] AcceptNode] NoMerge :=
  mergeMany_assoc_comm.2.1 (TrieOfList [Token.byte 0] AcceptNode)
    (TrieOfList [Token.byte 1] AcceptNode)
    (TrieOfList [Token.byte 2] AcceptNode)
    (Node.branch [(Token.byte 0, AcceptNode), (Token.byte 1, AcceptNode)] ATag.f)
    (by rfl)

-- ---------------------------------------------------------------------------
-- C8: CopyInLabel, the superinstruction chain builder (generator.py
-- lines 1713-1723).
-- ---------------------------------------------------------------------------

/-- CopyInLabel on fuel: walk the byte sequence through the DFA; a label
met must be zeroextends (the source asserts this) and is copied into the
chain; a branch contributes a single-child byte node whose tail walks the
child (or the empty node when the byte is absent); an exhausted byte list
yields a fresh childless normal_inst accept node (trie.MakeInterned with
no children and accept normal_inst). -/
def copyF (fuel : Nat) (bytes : List Token) (node : Node) : Option Node :=
  match fuel with
  | 0 => Option.none
  | fuel + 1 =>
    match bytes, node with
    | [], _ => some (Node.branch [] ATag.normal_inst)
    | b :: rest, Node.label k v next =>
      if k = "zeroextends" then
        (copyF fuel (b :: rest) next).map (fun m => Node.label k v m)
      else Option.none
    | b :: rest, Node.branch ch a =>
      (copyF fuel rest ((childAt ch b).getD EmptyNode)).map
        (fun m => Node.branch [(b, m)] ATag.f)

/-- CopyInLabel with enough fuel for its input. -/
def CopyInLabel (bytes : List Token) (node : Node) : Option Node :=
  copyF (bytes.length + nsize node + 1) bytes node

theorem copyF_succ_label (fl : Nat) (b : Token) (rest : List Token)
    (k : String) (v : LVal) (next : Node) :
    copyF (fl + 1) (b :: rest) (Node.label k v next) =
      if k = "zeroextends" then
        (copyF fl (b :: rest) next).map (fun m => Node.label k v m)
      else Option.none := rfl

theorem copyF_succ_branch (fl : Nat) (b : Token) (rest : List Token)
    (ch : List (Token × Node)) (a : ATag) :
    copyF (fl + 1) (b :: rest) (Node.branch ch a) =
      (copyF fl rest ((childAt ch b).getD EmptyNode)).map
        (fun m => Node.branch [(b, m)] ATag.f) := rfl

theorem child_getD_le (ch : List (Token × Node)) (b : Token) (a : ATag) :
    nsize ((childAt ch b).getD EmptyNode) ≤ nsize (Node.branch ch a) := by
  cases hc : childAt ch b with
  | none =>
    show nsize EmptyNode ≤ _
    rw [show nsize EmptyNode = 1 from rfl, nsize_branch]
    omega
  | some c =>
    have h2 := childAt_nsize hc
    rw [nsize_branch, Option.getD_some]
    omega

theorem copyF_stable : ∀ (f g : Nat) (bytes : List Token) (node : Node),
    bytes.length + nsize node < f → bytes.length + nsize node < g →
    copyF f bytes node = copyF g bytes node := by
  intro f
  induction f with
  | zero => intro g bytes node hf; omega
  | succ f ih =>
    intro g bytes node hf hg
    have hpos := node_nsize_pos node
    match g, hg with
    | g + 1, hg =>
      match bytes, node with
      | [], node => rfl
      | b :: rest, Node.label k v next =>
        rw [copyF_succ_label, copyF_succ_label]
        rw [ih g (b :: rest) next
          (by rw [nsize_label] at hf; omega)
          (by rw [nsize_label] at hg; omega)]
      | b :: rest, Node.branch ch a =>
        rw [copyF_succ_branch, copyF_succ_branch]
        have hle := child_getD_le ch b a
        rw [ih g rest ((childAt ch b).getD EmptyNode)
          (by simp only [List.length_cons] at hf; omega)
          (by simp only [List.length_cons] at hg; omega)]

/-- C8 (amended): the chain CopyInLabel builds does not end in the DFA
root: an exhausted byte sequence yields a fresh childless
normal_inst-accepting node; a zeroextends label on the walked DFA path is
copied into the chain and any other label aborts (the source asserts
node.key == zeroextends); and each byte contributes a single-child
non-accepting node whose tail walks the corresponding DFA child, the
empty node standing in for an absent child. -/
theorem copyInLabel_amended :
    (∀ (node : Node), CopyInLabel [] node
        = some (Node.branch [] ATag.normal_inst)) ∧
    (∀ (b : Token) (rest : List Token) (k : String) (v : LVal) (next : Node),
       CopyInLabel (b :: rest) (Node.label k v next)
         = if k = "zeroextends" then
             (CopyInLabel (b :: rest) next).map (fun m => Node.label k v m)
           else Option.none) ∧
    (∀ (b : Token) (rest : List Token) (ch : List (Token × Node)) (a : ATag),
       CopyInLabel (b :: rest) (Node.branch ch a)
         = (CopyInLabel rest ((childAt ch b).getD EmptyNode)).map
             (fun m => Node.branch [(b, m)] ATag.f)) := by
  refine ⟨fun node => rfl, ?_, ?_⟩
  · intro b rest k v next
    show copyF ((b :: rest).length + nsize (Node.label k v next) + 1) _ _ = _
    rw [show (b :: rest).length + nsize (Node.label k v next) + 1
        = ((b :: rest).length + nsize (Node.label k v next)) + 1 from rfl,
      copyF_succ_label]
    rw [copyF_stable ((b :: rest).length + nsize (Node.label k v next))
      ((b :: rest).length + nsize next + 1) (b :: rest) next
      (by rw [nsize_label]; simp) (by simp)]
    rfl
  · intro b rest ch a
    show copyF ((b :: rest).length + nsize (Node.branch ch a) + 1) _ _ = _
    rw [show (b :: rest).length + nsize (Node.branch ch a) + 1
        = ((b :: rest).length + nsize (Node.branch ch a)) + 1 from rfl,
      copyF_succ_branch]
    have hle := child_getD_le ch b a
    rw [copyF_stable ((b :: rest).length + nsize (Node.branch ch a))
      (rest.length + nsize ((childAt ch b).getD EmptyNode) + 1) rest
      ((childAt ch b).getD EmptyNode)
      (by simp only [List.length_cons]; omega) (by omega)]
    rfl

/-- Counterexample to C8 as stated: copying the byte sequence 00 into a
DFA whose root accepts 00 produces a chain ending in the fresh childless
normal_inst node, which is not the DFA root the chain was walked into —
the spec's claim that the chain ends in the already-constructed DFA's
root node does not hold of CopyInLabel. -/
theorem copyInLabel_counterexample :
    CopyInLabel [Token.byte 0]
        (Node.branch [(Token.byte 0, AcceptNode)] ATag.f)
      = some (Node.branch [(Token.byte 0, Node.branch [] ATag.normal_inst)]
          ATag.f)
    ∧ Node.branch [] ATag.normal_inst
        ≠ Node.branch [(Token.byte 0, AcceptNode)] ATag.f := by
  refine ⟨rfl, ?_⟩
  intro h
  injection h with h1 h2
  exact List.noConfusion h1

end X86
